import Mathlib

/-!
Verification development for the SEO optimisation pipeline
(resolve → plan → apply → diff) and its surrounding services.

The core pipeline (NodeRef resolver, patch plan, patch applier, diff
generator) is modelled from the specification; the Lighthouse audit
service and the frontend result handling are embedded from the
JavaScript/TypeScript sources.
-/

set_option maxHeartbeats 1000000

/-- Modelled from the spec: a parsed HTML node.  The Applier works on a
parsed document; a node is an element with a tag, an attribute list and
children, or a text node. -/
inductive HNode where
  | elem (tag : String) (attrs : List (String × String)) (children : List HNode)
  | text (s : String)

mutual

def hnodeDecEq : (a b : HNode) → Decidable (a = b)
  | .elem t1 a1 c1, .elem t2 a2 c2 =>
    have hc : Decidable (c1 = c2) := hnodeListDecEq c1 c2
    decidable_of_iff (t1 = t2 ∧ a1 = a2 ∧ c1 = c2) (by simp)
  | .elem _ _ _, .text _ => isFalse (fun h => HNode.noConfusion h)
  | .text _, .elem _ _ _ => isFalse (fun h => HNode.noConfusion h)
  | .text s, .text t => decidable_of_iff (s = t) (by simp)

def hnodeListDecEq : (a b : List HNode) → Decidable (a = b)
  | [], [] => isTrue rfl
  | [], _ :: _ => isFalse (by simp)
  | _ :: _, [] => isFalse (by simp)
  | x :: xs, y :: ys =>
    have h1 : Decidable (x = y) := hnodeDecEq x y
    have h2 : Decidable (xs = ys) := hnodeListDecEq xs ys
    decidable_of_iff (x = y ∧ xs = ys) (by simp)

end

instance : DecidableEq HNode := hnodeDecEq

/-- Modelled from the spec: a parsed document, split into the head
nodes (where the singleton upserts act) and the body nodes (where
`replaceAttr` targets live). -/
structure Doc where
  head : List HNode
  body : List HNode
deriving DecidableEq

/-- The marker attribute name stamped on every node the Applier creates
or mutates (`data-seo-agent`). -/
def seoMark : String := "data-seo-agent"

/-- The marker attribute value (schema version `v1`). -/
def seoMarkVal : String := "v1"

/-- Set an attribute in an attribute list: if the name is present the
value is replaced in place, otherwise the pair is appended. -/
def setA (a : List (String × String)) (k v : String) : List (String × String) :=
  if a.any (fun p => p.1 = k) then
    a.map (fun p => if p.1 = k then (p.1, v) else p)
  else a ++ [(k, v)]

/-- Look up the first value bound to an attribute name. -/
def lookupA (a : List (String × String)) (k : String) : Option String :=
  (a.find? (fun p => p.1 = k)).map (fun p => p.2)

/-- The attribute list has name `k` present and every pair named `k`
carries the value `v`. -/
def hasVal (a : List (String × String)) (k v : String) : Prop :=
  (∃ p ∈ a, p.1 = k) ∧ ∀ p ∈ a, p.1 = k → p.2 = v

/-- Modelled from the spec: the identity key of a head-level singleton
element — `title` (single), `meta[name]`, `meta[property]`,
`link[rel] (+hreflang)` and the one scoped style block. -/
inductive HKey where
  | title
  | metaName (name : String)
  | metaProp (prop : String)
  | linkRel (rel : String) (hreflang : Option String)
  | styleBlock
deriving DecidableEq

/-- Modelled from the spec: the identity key of a parsed head node, if it
is one of the managed singleton kinds. -/
def nodeKey : HNode → Option HKey
  | .text _ => none
  | .elem t a _ =>
    if t = "title" then some .title
    else if t = "meta" then
      match lookupA a "name" with
      | some n => some (.metaName n)
      | none =>
        match lookupA a "property" with
        | some p => some (.metaProp p)
        | none => none
    else if t = "link" then
      match lookupA a "rel" with
      | some r => some (.linkRel r (lookupA a "hreflang"))
      | none => none
    else if t = "style" then
      if (lookupA a seoMark).isSome then some .styleBlock else none
    else none

/-- A node carries the given identity key (decidable). -/
def keyIs (k : HKey) (n : HNode) : Bool :=
  nodeKey n = some k

/-- Modelled from the spec: the canonical head position of a key —
viewport meta first, then other metas sorted by their name/property
string, then the single title, then link tags sorted by rel+hreflang,
then the scoped style block.  Unmanaged nodes rank lowest so that new
managed nodes are never inserted in front of pre-existing content such
as a charset meta. -/
def keyRank : HKey → Nat × String × String
  | .metaName n => if n = "viewport" then (1, "", "") else (2, n, "n")
  | .metaProp p => (2, p, "p")
  | .title => (3, "", "")
  | .linkRel r h => (4, r, match h with | none => "" | some s => "h" ++ s)
  | .styleBlock => (5, "", "")

/-- Rank of an existing head node: its key's rank, or rank 0 for
unmanaged nodes. -/
def nodeRank (n : HNode) : Nat × String × String :=
  match nodeKey n with
  | some k => keyRank k
  | none => (0, "", "")

/-- Strict comparison of ranks (lexicographic). -/
def rankLt (x y : Nat × String × String) : Bool :=
  x.1 < y.1 ∨ (x.1 = y.1 ∧ (x.2.1 < y.2.1 ∨ (x.2.1 = y.2.1 ∧ x.2.2 < y.2.2)))

/-- Modelled from the spec: the managed update of an existing node with
key `k` and payload `v` — only the managed attribute (or text content)
is changed and the `data-seo-agent` mark is stamped; all other
attributes are left untouched. -/
def updNode (k : HKey) (v : String) (n : HNode) : HNode :=
  match n with
  | .text s => .text s
  | .elem t a c =>
    match k with
    | .title => .elem t (setA a seoMark seoMarkVal) [.text v]
    | .metaName _ => .elem t (setA (setA a "content" v) seoMark seoMarkVal) c
    | .metaProp _ => .elem t (setA (setA a "content" v) seoMark seoMarkVal) c
    | .linkRel _ _ => .elem t (setA (setA a "href" v) seoMark seoMarkVal) c
    | .styleBlock => .elem t (setA a seoMark seoMarkVal) [.text v]

/-- Modelled from the spec: the node created when a key is absent,
stamped with the `data-seo-agent` mark. -/
def newNode (k : HKey) (v : String) : HNode :=
  match k with
  | .title => .elem "title" [(seoMark, seoMarkVal)] [.text v]
  | .metaName n => .elem "meta" [("name", n), ("content", v), (seoMark, seoMarkVal)] []
  | .metaProp p => .elem "meta" [("property", p), ("content", v), (seoMark, seoMarkVal)] []
  | .linkRel r h =>
    .elem "link"
      ((("rel", r) :: (match h with | some s => [("hreflang", s)] | none => []))
        ++ [("href", v), (seoMark, seoMarkVal)]) []
  | .styleBlock => .elem "style" [(seoMark, seoMarkVal)] [.text v]

/-- Update the first node satisfying `p` with `f`, leaving the rest of
the list unchanged. -/
def updateFirst (p : HNode → Bool) (f : HNode → HNode) : List HNode → List HNode
  | [] => []
  | n :: ns => if p n then f n :: ns else n :: updateFirst p f ns

/-- Insert a node before the first existing node of strictly larger
canonical rank (the canonical position of §4.2). -/
def insertByRank (x : HNode) : List HNode → List HNode
  | [] => [x]
  | n :: ns => if rankLt (nodeRank x) (nodeRank n) then x :: n :: ns else n :: insertByRank x ns

/-- Modelled from the spec: idempotent upsert of a head singleton — if a
node with the key exists, the first one (in document order) is updated
in place; otherwise a freshly stamped node is created at its canonical
position. -/
def upsertHead (k : HKey) (v : String) (h : List HNode) : List HNode :=
  if h.any (keyIs k) then updateFirst (keyIs k) (updNode k v) h
  else insertByRank (newNode k v) h

/-- Apply a list of keyed upserts in order. -/
def applyUpserts (kvs : List (HKey × String)) (h : List HNode) : List HNode :=
  kvs.foldl (fun acc kv => upsertHead kv.1 kv.2 acc) h

/-- Number of head nodes carrying a given identity key. -/
def countKey (k : HKey) (h : List HNode) : Nat :=
  h.countP (keyIs k)

/-- Modify the element at an index, identity when out of bounds. -/
def modifyIdx (f : HNode → HNode) : Nat → List HNode → List HNode
  | _, [] => []
  | 0, x :: xs => f x :: xs
  | n + 1, x :: xs => x :: modifyIdx f n xs

/-- Modelled from the spec: walk a recorded child-index path from the
body root; succeeds only if every step is in bounds. -/
def nodeAt : List HNode → List Nat → Option HNode
  | _, [] => none
  | b, i :: rest =>
    match b[i]? with
    | none => none
    | some n =>
      match rest with
      | [] => some n
      | _ :: _ =>
        match n with
        | .elem _ _ c => nodeAt c rest
        | .text _ => none

/-- Apply `f` to the node addressed by a child-index path; identity when
the path does not resolve. -/
def setAtPath (b : List HNode) (p : List Nat) (f : HNode → HNode) : List HNode :=
  match p with
  | [] => b
  | i :: rest =>
    match rest with
    | [] => modifyIdx f i b
    | _ :: _ =>
      modifyIdx
        (fun n =>
          match n with
          | .elem t a c => .elem t a (setAtPath c rest f)
          | .text s => .text s) i b

/-- Tag-and-attribute view of the node at a path (`none` for a missing
path or a text node). -/
def viewAt (b : List HNode) (p : List Nat) : Option (String × List (String × String)) :=
  match nodeAt b p with
  | some (.elem t a _) => some (t, a)
  | _ => none

/-- The tag of the element at a path, if any. -/
def tagAt (b : List HNode) (p : List Nat) : Option String :=
  (viewAt b p).map (fun v => v.1)

/-- Modelled from the spec: the attribute rewrite a `replaceAttr`
operation performs — set the managed attribute and stamp the
`data-seo-agent` mark. -/
def storeAttrs (a v : String) (al : List (String × String)) : List (String × String) :=
  setA (setA al a v) seoMark seoMarkVal

/-- The node-level action of a `replaceAttr` operation (text nodes are
left untouched). -/
def nodeStore (a v : String) : HNode → HNode
  | .text s => .text s
  | .elem t al c => .elem t (storeAttrs a v al) c

/-- An accepted body edit: an anchored path, the attribute name and the
new value. -/
structure Store where
  path : List Nat
  attr : String
  val : String
deriving DecidableEq

/-- Apply one accepted body edit. -/
def applyStore (b : List HNode) (s : Store) : List HNode :=
  setAtPath b s.path (nodeStore s.attr s.val)

/-- Apply a list of accepted body edits in order. -/
def applyStores (ss : List Store) (b : List HNode) : List HNode :=
  ss.foldl applyStore b

mutual

/-- The text content of a node (concatenated descendant text). -/
def nodeText : HNode → String
  | .text s => s
  | .elem _ _ c => nodesText c

def nodesText : List HNode → String
  | [] => ""
  | n :: ns => nodeText n ++ nodesText ns

end

/-- A body element together with its child-index path, tag, attributes
and text content, used by the resolver. -/
structure ElemInfo where
  path : List Nat
  tag : String
  attrs : List (String × String)
  text : String
deriving DecidableEq

mutual

/-- Collect every element of the body in document (pre-)order. -/
def elemsOf (i : Nat) : HNode → List ElemInfo
  | .text _ => []
  | .elem t a c =>
    ⟨[i], t, a, nodesText c⟩ :: (elemsOfList 0 c).map (fun e => ⟨i :: e.path, e.tag, e.attrs, e.text⟩)

def elemsOfList (i : Nat) : List HNode → List ElemInfo
  | [] => []
  | n :: ns => elemsOf i n ++ elemsOfList (i + 1) ns

end

/-- Modelled from the spec: a CSS-style selector for the resolver — a
tag name, optionally refined by one attribute/value test. -/
inductive Selector where
  | tag (t : String)
  | tagAttr (t a v : String)
deriving DecidableEq

/-- Whether an element matches a selector. -/
def selMatches (sel : Selector) (e : ElemInfo) : Bool :=
  match sel with
  | .tag t => e.tag = t
  | .tagAttr t a v => e.tag = t && lookupA e.attrs a = some v

/-- Modelled from the spec: the fixed penalty applied to a selector
match that is ambiguous (multiple candidates). -/
def ambiguityPenalty : ℚ := 1 / 10

/-- Modelled from the spec: exact selector matching — a unique match has
confidence 1.0, an ambiguous one picks the first candidate in document
order and lowers the confidence by the fixed ambiguity penalty. -/
def resolveBySelector (d : Doc) (sel : Selector) : Option (List Nat × ℚ) :=
  match (elemsOfList 0 d.body).filter (selMatches sel) with
  | [] => none
  | [e] => some (e.path, 1)
  | e :: _ :: _ => some (e.path, 1 - ambiguityPenalty)

/-- Modelled from the spec: path confidence scaled by path-length
fragility, always inside the band (3/5, 4/5]. -/
def pathConf (len : Nat) : ℚ :=
  3 / 5 + (1 / 5) * (1 / (1 + len))

/-- Modelled from the spec: structural path matching — walk the recorded
child-index path; succeeds only if every step is in bounds. -/
def resolveByPath (d : Doc) (p : List Nat) : Option (List Nat × ℚ) :=
  if p.isEmpty then none
  else
    match nodeAt d.body p with
    | some _ => some (p, pathConf p.length)
    | none => none

/-- Whitespace-normalised tokens of a string. -/
def wsTokens (s : String) : List String :=
  (s.split Char.isWhitespace).filter (fun t => t ≠ "")

/-- Modelled from the spec: token-overlap similarity between two
strings, in [0, 1]. -/
def simScore (a b : String) : ℚ :=
  (((wsTokens a).inter (wsTokens b)).length : ℚ)
    / ((max 1 (max (wsTokens a).length (wsTokens b).length) : Nat) : ℚ)

/-- Modelled from the spec: snippet confidence is the similarity score
scaled into a sub-1.0 band (here [0, 1/2]) so it never outranks a
selector or path match. -/
def snippetConf (si : ℚ) : ℚ := si / 2

/-- Modelled from the spec: snippet/fingerprint matching — scan the
document for the best-scoring candidate (ties broken by document
order, first wins). -/
def resolveBySnippet (d : Doc) (s : String) : Option (List Nat × ℚ) :=
  match elemsOfList 0 d.body with
  | [] => none
  | e :: es =>
    let best := es.foldl (fun acc e' => if simScore e'.text s > simScore acc.text s then e' else acc) e
    some (best.path, snippetConf (simScore best.text s))

/-- Modelled from the spec: a NodeRef — selector, structural path,
snippet and derived fingerprint, plus the confidence and concrete
anchor filled in by the resolver. -/
structure NodeRef where
  selector : Option Selector
  path : Option (List Nat)
  snippet : Option String
  fingerprint : Option String
  confidence : ℚ
  anchor : Option (List Nat)
deriving DecidableEq

/-- The snippet text used by the fallback stage: the stored snippet if
non-empty, otherwise the fingerprint signature (empty inputs are
rejected before resolution begins). -/
def snippetSource (r : NodeRef) : Option String :=
  match r.snippet with
  | some s => if (wsTokens s).isEmpty then none else some s
  | none =>
    match r.fingerprint with
    | some f => if (wsTokens f).isEmpty then none else some f
    | none => none

/-- Modelled from the spec: the resolution fallback chain — selector,
then structural path, then snippet+fingerprint, composed with
short-circuit on first success; on total failure the NodeRef is left
unresolved (no anchor, confidence 0). -/
def resolveRef (d : Doc) (r : NodeRef) : NodeRef :=
  match r.selector.bind (resolveBySelector d) with
  | some pc => { r with anchor := some pc.1, confidence := pc.2 }
  | none =>
    match r.path.bind (resolveByPath d) with
    | some pc => { r with anchor := some pc.1, confidence := pc.2 }
    | none =>
      match (snippetSource r).bind (resolveBySnippet d) with
      | some pc => { r with anchor := some pc.1, confidence := pc.2 }
      | none => { r with anchor := none, confidence := 0 }

/-- Modelled from the spec: one parsed CSS declaration of an
`insertStyleScoped` rule, with its priority-forcing flag
(`!important`). -/
structure CssDecl where
  prop : String
  value : String
  important : Bool
deriving DecidableEq

/-- Modelled from the spec: the fixed allow-list of Tier-1 CSS
properties — font-size, min-height, padding, line-height, and a small
set of layout properties. -/
def SAFE_CSS_PROPS : List String :=
  ["font-size", "min-height", "padding", "line-height", "margin", "display", "width", "height"]

/-- Configuration: `insertStyleScoped` enabled. -/
def SAFE_CSS_TOGGLE : Bool := true

/-- A declaration passes the safety gate iff its property is on the
allow-list and it uses no priority-forcing modifier. -/
def cssDeclSafe (dcl : CssDecl) : Bool :=
  dcl.prop ∈ SAFE_CSS_PROPS && !dcl.important

/-- A rule set passes the safety gate iff every declaration does. -/
def cssSafe (rules : List CssDecl) : Bool :=
  rules.all cssDeclSafe

/-- Configuration: minimum NodeRef confidence required for an operation
to be applied rather than deferred to ManualFixEntry. -/
def CONF_THRESHOLD : ℚ := 1 / 2

/-- Modelled from the spec: the closed variant set of patch operations,
each carrying an auditId and a human-readable reason. -/
inductive PatchOp where
  | upsertTitle (auditId reason text : String)
  | upsertMetaName (auditId reason name content : String)
  | upsertMetaProperty (auditId reason prop content : String)
  | upsertLinkRel (auditId reason rel href : String) (hreflang : Option String)
  | replaceAttr (auditId reason : String) (target : NodeRef) (attrName attrValue : String)
  | insertStyleScoped (auditId reason : String) (target : NodeRef) (cssRules : List CssDecl)
      (mediaGuard : Option String)
deriving DecidableEq

/-- Modelled from the spec: an ordered sequence of patch operations
(order within the plan is advisory; the Applier imposes its own
canonical order). -/
structure PatchPlan where
  operations : List PatchOp
deriving DecidableEq

/-- Modelled from the spec: why an operation was declined. -/
inductive FixReason where
  | Unresolvable
  | Ambiguous
  | Unsafe
deriving DecidableEq

/-- Modelled from the spec: an operation the Applier declined to
perform, with its reason and a diagnostic detail. -/
structure ManualFixEntry where
  operation : PatchOp
  reason : FixReason
  detail : String
deriving DecidableEq

/-- Modelled from the spec: the record of a node created or mutated by
the Applier (stamped with the stable marker attribute). -/
inductive AppliedMark where
  | headMark (key : HKey)
  | bodyMark (path : List Nat) (attrName : String)
deriving DecidableEq

/-- The head-singleton upsert a head-level operation denotes. -/
def opKV : PatchOp → Option (HKey × String)
  | .upsertTitle _ _ t => some (.title, t)
  | .upsertMetaName _ _ n c => some (.metaName n, c)
  | .upsertMetaProperty _ _ p c => some (.metaProp p, c)
  | .upsertLinkRel _ _ r href h => some (.linkRel r h, href)
  | _ => none

/-- Render a CSS declaration. -/
def renderDecl (dcl : CssDecl) : String :=
  dcl.prop ++ ": " ++ dcl.value ++ ";"

/-- Render a selector for the scoped style text. -/
def renderSel : Option Selector → String
  | some (.tag t) => t
  | some (.tagAttr t a v) => t ++ "[" ++ a ++ "=" ++ v ++ "]"
  | none => "body"

/-- Render one scoped style rule, wrapped in its optional media
guard. -/
def renderStyleRule (target : NodeRef) (rules : List CssDecl) (mg : Option String) : String :=
  let core := renderSel target.selector ++ " \x7b " ++ String.intercalate " " (rules.map renderDecl) ++ " \x7d"
  match mg with
  | some m => "@media " ++ m ++ " \x7b " ++ core ++ " \x7d"
  | none => core

/-- The style text an `insertStyleScoped` operation contributes, if it
passes the safety gate. -/
def safeStyleText : PatchOp → Option String
  | .insertStyleScoped _ _ target rules mg =>
    if SAFE_CSS_TOGGLE && cssSafe rules then some (renderStyleRule target rules mg) else none
  | _ => none

/-- The single scoped style-block upsert accumulating all safe CSS
rules of the plan, if any. -/
def styleKVs (plan : PatchPlan) : List (HKey × String) :=
  let rs := plan.operations.filterMap safeStyleText
  if rs.isEmpty then [] else [(.styleBlock, String.intercalate "\n" rs)]

/-- Keep only the last entry for every key, preserving relative
order. -/
def dedupBy {α κ : Type} [DecidableEq κ] (key : α → κ) : List α → List α
  | [] => []
  | x :: xs => if xs.any (fun y => key y = key x) then dedupBy key xs else x :: dedupBy key xs

/-- Insert into a sorted list (stable). -/
def insSorted {α : Type} (le : α → α → Bool) (x : α) : List α → List α
  | [] => [x]
  | y :: ys => if le x y then x :: y :: ys else y :: insSorted le x ys

/-- Insertion sort (stable, deterministic). -/
def insSort {α : Type} (le : α → α → Bool) : List α → List α
  | [] => []
  | x :: xs => insSorted le x (insSort le xs)

/-- Canonical order on head upserts (by key rank). -/
def kvLe (x y : HKey × String) : Bool :=
  !rankLt (keyRank y.1) (keyRank x.1)

/-- Lexicographic comparison of child-index paths (ascending document
position). -/
def pathLtB : List Nat → List Nat → Bool
  | [], [] => false
  | [], _ :: _ => true
  | _ :: _, [] => false
  | i :: is, j :: js => i < j || (i = j && pathLtB is js)

/-- Order on accepted body edits: ascending document position, then
attribute name. -/
def storeLe (s t : Store) : Bool :=
  pathLtB s.path t.path || (s.path = t.path && compare s.attr t.attr ≠ Ordering.gt)

/-- The canonical, deduplicated list of head upserts of a plan
(§4.2: the Applier imposes its own fixed head order; for duplicate
keys the last operation wins). -/
def headKVs (plan : PatchPlan) : List (HKey × String) :=
  insSort kvLe (dedupBy (fun kv => kv.1) (plan.operations.filterMap opKV ++ styleKVs plan))

/-- Modelled from the spec: the gate a `replaceAttr` operation must
pass — a resolved anchor, confidence at or above the threshold, an
existing target element, and never a `<script>` or `<style>` node. -/
def gateStore (b : List HNode) : PatchOp → Option Store
  | .replaceAttr _ _ target a v =>
    match target.anchor with
    | none => none
    | some p =>
      if target.confidence < CONF_THRESHOLD then none
      else
        match tagAt b p with
        | some t => if t = "script" || t = "style" then none else some ⟨p, a, v⟩
        | none => none
  | _ => none

/-- The accepted, deduplicated and position-ordered body edits of a
plan. -/
def bodyStores (b : List HNode) (plan : PatchPlan) : List Store :=
  insSort storeLe (dedupBy (fun s => (s.path, s.attr)) (plan.operations.filterMap (gateStore b)))

/-- Modelled from the spec: the ManualFixEntry an operation produces
when it is declined (unresolved anchor, low confidence, forbidden
target, or an unsafe CSS rule). -/
def opManualFix (b : List HNode) : PatchOp → Option ManualFixEntry
  | .replaceAttr aid rsn target a v =>
    match target.anchor with
    | none => some ⟨.replaceAttr aid rsn target a v, .Unresolvable, "no anchor resolved"⟩
    | some p =>
      if target.confidence < CONF_THRESHOLD then
        some ⟨.replaceAttr aid rsn target a v, .Unresolvable, "confidence below threshold"⟩
      else
        match tagAt b p with
        | some t =>
          if t = "script" || t = "style" then
            some ⟨.replaceAttr aid rsn target a v, .Unsafe, "forbidden target element"⟩
          else none
        | none => some ⟨.replaceAttr aid rsn target a v, .Unresolvable, "anchor not found in document"⟩
  | .insertStyleScoped aid rsn target rules mg =>
    if SAFE_CSS_TOGGLE && cssSafe rules then none
    else some ⟨.insertStyleScoped aid rsn target rules mg, .Unsafe, "css rule outside the Tier-1 allow-list"⟩
  | _ => none

/-- Modelled from the spec: the Applier's output — the modified
document, the AppliedMark list and the ManualFixEntry list. -/
structure ApplyResult where
  doc : Doc
  applied : List AppliedMark
  manualFix : List ManualFixEntry
deriving DecidableEq

/-- Modelled from the spec: apply a PatchPlan to a parsed document —
idempotent upserts by identity key inside the head (in canonical
order), gated attribute edits in the body (ascending document
position), bad operations isolated into ManualFixEntry. -/
def applyPlan (d : Doc) (plan : PatchPlan) : ApplyResult :=
  let kvs := headKVs plan
  let ss := bodyStores d.body plan
  { doc := { head := applyUpserts kvs d.head, body := applyStores ss d.body },
    applied := kvs.map (fun kv => .headMark kv.1) ++ ss.map (fun s => .bodyMark s.path s.attr),
    manualFix := plan.operations.filterMap (opManualFix d.body) }

/-- Render an attribute list. -/
def renderAttrs (a : List (String × String)) : String :=
  String.join (a.map (fun p => " " ++ p.1 ++ "=\"" ++ p.2 ++ "\""))

mutual

/-- Serialise a node. -/
def renderNode : HNode → String
  | .text s => s
  | .elem t a c => "<" ++ t ++ renderAttrs a ++ ">" ++ renderNodes c ++ "</" ++ t ++ ">"

/-- Serialise a node list. -/
def renderNodes : List HNode → String
  | [] => ""
  | n :: ns => renderNode n ++ renderNodes ns

end

/-- Serialise a document, one top-level node per line. -/
def serializeDoc (d : Doc) : String :=
  String.intercalate "\n"
    (["<html>", "<head>"] ++ d.head.map renderNode
      ++ ["</head>", "<body>"] ++ d.body.map renderNode ++ ["</body>", "</html>"])

/-- One line of a line diff: kept, deleted or inserted. -/
inductive DiffEdit where
  | keep (s : String)
  | del (s : String)
  | ins (s : String)
deriving DecidableEq

/-- Whether an edit keeps its line. -/
def isKeep : DiffEdit → Bool
  | .keep _ => true
  | _ => false

/-- Number of changed lines in an edit script. -/
def diffCost (es : List DiffEdit) : Nat :=
  es.countP (fun e => !isKeep e)

/-- Modelled from the spec: a standard longest-common-subsequence-based
line diff — the minimal edit script between two line sequences. -/
def diffLines : List String → List String → List DiffEdit
  | [], ys => ys.map .ins
  | x :: xs, [] => (x :: xs).map .del
  | x :: xs, y :: ys =>
    if x = y then .keep x :: diffLines xs ys
    else
      let dd := DiffEdit.del x :: diffLines xs (y :: ys)
      let ii := DiffEdit.ins y :: diffLines (x :: xs) ys
      if diffCost dd ≤ diffCost ii then dd else ii
termination_by l1 l2 => l1.length + l2.length

/-- Modelled from the spec: apply an edit script to a line sequence,
validating every kept and deleted line against the source. -/
def applyEdits : List DiffEdit → List String → Option (List String)
  | [], [] => some []
  | [], _ :: _ => none
  | .keep s :: es, x :: xs =>
    if s = x then (applyEdits es xs).map (fun r => x :: r) else none
  | .keep _ :: _, [] => none
  | .del s :: es, x :: xs => if s = x then applyEdits es xs else none
  | .del _ :: _, [] => none
  | .ins s :: es, xs => (applyEdits es xs).map (fun r => s :: r)

/-- Strip trailing whitespace from a line. -/
def stripTrailingWs (s : String) : String :=
  String.mk ((s.data.reverse.dropWhile Char.isWhitespace).reverse)

/-- Canonicalise self-closing tag formatting. -/
def canonSelfClose (s : String) : String :=
  (s.replace " />" "/>").replace "/>" " />"

/-- Modelled from the spec: per-line normalisation before diffing —
collapse trailing whitespace and canonicalise self-closing tags. -/
def normLine (s : String) : String :=
  canonSelfClose (stripTrailingWs s)

/-- Modelled from the spec: normalise a serialisation — normalise line
endings, then normalise each line. -/
def normLines (s : String) : List String :=
  ((s.replace "\r\n" "\n").splitOn "\n").map normLine

/-- Render one edit as a unified-diff line. -/
def renderEdit : DiffEdit → String
  | .keep s => " " ++ s
  | .del s => "-" ++ s
  | .ins s => "+" ++ s

/-- Modelled from the spec: a DiffResult — the diff text and whether it
is structurally applicable. -/
structure DiffResult where
  diff : String
  applicable : Bool
deriving DecidableEq

/-- Modelled from the spec: compute the normalised unified diff and
validate it — `applicable` is true iff re-applying the hunks to the
normalised original reconstructs the normalised modified document
exactly, and the diff is non-empty whenever the plan produced at least
one AppliedMark. -/
def validate_unified_diff (orig modified : String) (marks : List AppliedMark) : DiffResult :=
  let lo := normLines orig
  let lm := normLines modified
  let es := diffLines lo lm
  let ds := if es.all isKeep then "" else String.intercalate "\n" (es.map renderEdit)
  { diff := ds,
    applicable := (applyEdits es lo == some lm) && (marks.isEmpty || !(ds == "")) }

/-- Modelled from the spec: the result a pipeline invocation exposes —
modified serialisation, diff, applicability and the manual-fix list. -/
structure PipelineResult where
  modified : String
  diff : String
  applicable : Bool
  manualFix : List ManualFixEntry
deriving DecidableEq

/-- Annotate one operation's NodeRef with anchor and confidence. -/
def resolveOp (d : Doc) : PatchOp → PatchOp
  | .replaceAttr aid rsn target a v => .replaceAttr aid rsn (resolveRef d target) a v
  | .insertStyleScoped aid rsn target rules mg => .insertStyleScoped aid rsn (resolveRef d target) rules mg
  | op => op

/-- Modelled from the spec: the Resolver pass — annotate every
operation's NodeRef with a concrete anchor and confidence. -/
def resolvePlan (d : Doc) (plan : PatchPlan) : PatchPlan :=
  ⟨plan.operations.map (resolveOp d)⟩

/-- Modelled from the spec: one full pipeline invocation —
resolve, apply, then diff the two serialisations. -/
def runPipeline (d : Doc) (plan : PatchPlan) : PipelineResult :=
  let ar := applyPlan d (resolvePlan d plan)
  let dr := validate_unified_diff (serializeDoc d) (serializeDoc ar.doc) ar.applied
  ⟨serializeDoc ar.doc, dr.diff, dr.applicable, ar.manualFix⟩

/-- Modelled from the spec: the optional resolution cache, keyed by the
content of the input document (its hash) together with the NodeRef. -/
abbrev ResCache : Type := List ((Doc × NodeRef) × NodeRef)

/-- A cache is coherent when every entry stores exactly the resolution
it claims to cache. -/
def cacheCoherent (c : ResCache) : Prop :=
  ∀ e ∈ c, e.2 = resolveRef e.1.1 e.1.2

/-- Look up a cache entry. -/
def cacheFind (c : ResCache) (k : Doc × NodeRef) : Option NodeRef :=
  match c with
  | [] => none
  | (k', v) :: rest => if k' = k then some v else cacheFind rest k

/-- Resolve through the cache: reuse a hit, otherwise compute and
append (idempotent write on miss). -/
def resolveRefCached (c : ResCache) (d : Doc) (r : NodeRef) : NodeRef × ResCache :=
  match cacheFind c (d, r) with
  | some v => (v, c)
  | none => (resolveRef d r, c ++ [((d, r), resolveRef d r)])

/-- Resolve one operation through the cache. -/
def resolveOpCached (c : ResCache) (d : Doc) : PatchOp → PatchOp × ResCache
  | .replaceAttr aid rsn target a v =>
    let rc := resolveRefCached c d target
    (.replaceAttr aid rsn rc.1 a v, rc.2)
  | .insertStyleScoped aid rsn target rules mg =>
    let rc := resolveRefCached c d target
    (.insertStyleScoped aid rsn rc.1 rules mg, rc.2)
  | op => (op, c)

/-- Resolve a list of operations through the cache, threading it. -/
def resolveOpsCached (c : ResCache) (d : Doc) : List PatchOp → List PatchOp × ResCache
  | [] => ([], c)
  | op :: rest =>
    let oc := resolveOpCached c d op
    let rc := resolveOpsCached oc.2 d rest
    (oc.1 :: rc.1, rc.2)

/-- One pipeline invocation running through a resolution cache state. -/
def runPipelineCached (c : ResCache) (d : Doc) (plan : PatchPlan) : PipelineResult × ResCache :=
  let rc := resolveOpsCached c d plan.operations
  let ar := applyPlan d ⟨rc.1⟩
  let dr := validate_unified_diff (serializeDoc d) (serializeDoc ar.doc) ar.applied
  (⟨serializeDoc ar.doc, dr.diff, dr.applicable, ar.manualFix⟩, rc.2)

/-- One SEO issue of the frontend analysis result
(`seo-agent-demo/src/App.tsx`). -/
structure SEOIssue where
  title : String
  raw_html : String
  optimized_html : String
  ranges : Option (List (List ℚ))
deriving DecidableEq

/-- The frontend `SEOAnalysisResult` interface
(`seo-agent-demo/src/App.tsx`). -/
structure SEOAnalysisResult where
  seo_score : ℚ
  total_lines : ℚ
  issues : List SEOIssue
  context : String
deriving DecidableEq

/-- The frontend `OptimizationResult` interface
(`seo-agent-demo/src/App.tsx`, lines 18–26). -/
structure OptimizationResult where
  success : Bool
  modified_html : Option String
  optimization_result : Option SEOAnalysisResult
  original_seo_score : Option ℚ
  optimized_seo_score : Option ℚ
  issues_processed : Option ℚ
  error : Option String
deriving DecidableEq

/-- The field names of the `OptimizationResult` interface. -/
def optimizationResultFields : List String :=
  ["success", "modified_html", "optimization_result", "original_seo_score",
    "optimized_seo_score", "issues_processed", "error"]

/-- The JSON keys present on a concrete `OptimizationResult` value
(optional fields appear only when set). -/
def resultJsonKeys (r : OptimizationResult) : List String :=
  ["success"]
    ++ (if r.modified_html.isSome then ["modified_html"] else [])
    ++ (if r.optimization_result.isSome then ["optimization_result"] else [])
    ++ (if r.original_seo_score.isSome then ["original_seo_score"] else [])
    ++ (if r.optimized_seo_score.isSome then ["optimized_seo_score"] else [])
    ++ (if r.issues_processed.isSome then ["issues_processed"] else [])
    ++ (if r.error.isSome then ["error"] else [])

/-- The outcome of the frontend's `fetch` to `/optimizev1`: a parsed
JSON response or a network failure. -/
inductive FetchOutcome where
  | response (data : OptimizationResult)
  | networkError
deriving DecidableEq

/-- `handleGenerate` from `seo-agent-demo/src/App.tsx`: the result state
set after the fetch — an explicit error result when `data.error` is
truthy or the backend is unreachable, otherwise the response data
itself. -/
def handleGenerateResult : FetchOutcome → OptimizationResult
  | .networkError =>
    { success := false, modified_html := none, optimization_result := none,
      original_seo_score := none, optimized_seo_score := none,
      issues_processed := none, error := some "Cannot reach backend" }
  | .response data =>
    match data.error with
    | some e =>
      if e = "" then data
      else
        { success := false, modified_html := none, optimization_result := none,
          original_seo_score := none, optimized_seo_score := none,
          issues_processed := none, error := some e }
    | none => data

/-- `lighthouse-service/server.js`: the `seoScore` value returned by the
audit endpoints — the Lighthouse category score (in [0,1]) times 100,
rounded to two decimal places via `Math.round(x * 100) / 100`. -/
def audit_seoScore (catScore : ℚ) : ℚ :=
  let seoScore := catScore * 100
  (round (seoScore * 100) : ℤ) / 100

/-- An observable effect of an audit request handler in
`lighthouse-service/server.js`. -/
inductive AuditEffect where
  | respond (status : Nat) (errorField : Option String)
  | startTempServer (port : Nat)
  | launchChrome
  | runLighthouse
deriving DecidableEq

/-- The `POST /audit` handler: reject a missing (or empty, i.e. falsy)
`url` with HTTP 400 before any Chrome launch, otherwise launch Chrome,
run Lighthouse and answer (200, or 500 if the audit fails). -/
def auditHandlerEffects (url : Option String) (auditOk : Bool) : List AuditEffect :=
  if url = none ∨ url = some "" then
    [.respond 400 (some "Missing url in request body")]
  else
    [.launchChrome, .runLighthouse,
      if auditOk then .respond 200 none else .respond 500 (some "audit error")]

/-- The `POST /audit-html` handler: reject a missing (or empty) `html`
with HTTP 400 before starting the temp server or Chrome, otherwise
serve the HTML on port 3002, launch Chrome and run Lighthouse. -/
def auditHtmlHandlerEffects (html : Option String) (auditOk : Bool) : List AuditEffect :=
  if html = none ∨ html = some "" then
    [.respond 400 (some "Missing html in request body")]
  else
    [.startTempServer 3002, .launchChrome, .runLighthouse,
      if auditOk then .respond 200 none else .respond 500 (some "audit error")]

/-- A response of the temporary HTTP server. -/
structure TempResponse where
  contentType : String
  body : String
deriving DecidableEq

/-- The port of the temporary HTTP server in `POST /audit-html`. -/
def tempPort : Nat := 3002

/-- The temporary express app of `POST /audit-html`
(`lighthouse-service/server.js`, lines 75–98): `/temp-page`,
`/redirect/landing`, and a catch-all middleware — each route sets
`Content-Type: text/html` and sends the posted HTML. -/
def tempAppHandle (html : String) (reqPath : String) : TempResponse :=
  if reqPath = "/temp-page" then { contentType := "text/html", body := html }
  else if reqPath = "/redirect/landing" then { contentType := "text/html", body := html }
  else { contentType := "text/html", body := html }

/-- Whether an operation is an `insertStyleScoped` that fails the CSS
safety gate. -/
def unsafeStyleB : PatchOp → Bool
  | .insertStyleScoped _ _ _ rules _ => !(SAFE_CSS_TOGGLE && cssSafe rules)
  | _ => false

/-- Invariant of an attribute list after a `replaceAttr` store: the
mark is stamped and (unless the stored attribute is the mark itself)
the stored attribute carries the stored value. -/
def storedOKal (a v : String) (al : List (String × String)) : Prop :=
  hasVal al seoMark seoMarkVal ∧ (a ≠ seoMark → hasVal al a v)

/-- Invariant of a head node after the upsert for key `k` with payload
`v` has acted on it: the managed attribute and mark are in place (and
for title/style nodes the text content is the payload). -/
def updOK (k : HKey) (v : String) (n : HNode) : Prop :=
  match n with
  | .text _ => False
  | .elem _ a c =>
    match k with
    | .title => hasVal a seoMark seoMarkVal ∧ c = [.text v]
    | .metaName _ => hasVal a "content" v ∧ hasVal a seoMark seoMarkVal
    | .metaProp _ => hasVal a "content" v ∧ hasVal a seoMark seoMarkVal
    | .linkRel _ _ => hasVal a "href" v ∧ hasVal a seoMark seoMarkVal
    | .styleBlock => hasVal a seoMark seoMarkVal ∧ c = [.text v]

/-- The head state for key `k`: a node with that key exists and the
first one is a fixpoint of the upsert's update. -/
def keyState (k : HKey) (v : String) (h : List HNode) : Prop :=
  match h.find? (keyIs k) with
  | some n => updOK k v n
  | none => False

/-- The body state for an accepted store: if its path addresses an
element, that element's attributes satisfy the store invariant. -/
def storedAt (s : Store) (b : List HNode) : Prop :=
  match viewAt b s.path with
  | some ta => storedOKal s.attr s.val ta.2
  | none => True

/-! ### Attribute-list lemmas -/

theorem mapA_eq_self {k v : String} {a : List (String × String)}
    (h : ∀ p ∈ a, p.1 = k → p.2 = v) :
    a.map (fun p => if p.1 = k then (p.1, v) else p) = a := by
  induction a with
  | nil => rfl
  | cons p rest ih =>
    obtain ⟨p1, p2⟩ := p
    simp only [List.map_cons]
    rw [ih (fun q hq hq1 => h q (List.mem_cons_of_mem _ hq) hq1)]
    by_cases hp : p1 = k
    · have h2 := h (p1, p2) (List.mem_cons_self _ _) hp
      simp only at h2
      simp [hp, h2]
    · simp [hp]

theorem setA_of_hasVal {a : List (String × String)} {k v : String}
    (h : hasVal a k v) : setA a k v = a := by
  obtain ⟨⟨p, hp, hp1⟩, hall⟩ := h
  unfold setA
  rw [if_pos]
  · exact mapA_eq_self hall
  · exact List.any_eq_true.mpr ⟨p, hp, by simp [hp1]⟩

theorem hasVal_setA (a : List (String × String)) (k v : String) :
    hasVal (setA a k v) k v := by
  unfold setA
  split
  · rename_i hany
    obtain ⟨p, hp, hpk⟩ := List.any_eq_true.mp hany
    constructor
    · refine ⟨(p.1, v), List.mem_map.mpr ⟨p, hp, ?_⟩, by simp at hpk; simp [hpk]⟩
      simp at hpk
      simp [hpk]
    · intro q hq hq1
      obtain ⟨r, hr, hrq⟩ := List.mem_map.mp hq
      by_cases hrk : r.1 = k
      · simp [hrk] at hrq
        simp [← hrq]
      · simp [hrk] at hrq
        subst hrq
        exact absurd hq1 hrk
  · constructor
    · exact ⟨(k, v), by simp⟩
    · intro q hq hq1
      rcases List.mem_append.mp hq with hq' | hq'
      · rename_i hany
        exfalso
        exact hany (List.any_eq_true.mpr ⟨q, hq', by simp [hq1]⟩)
      · simp at hq'
        simp [hq']


theorem hasVal_setA_other {a : List (String × String)} {k v k' v' : String}
    (hkk : k ≠ k') (h : hasVal a k v) : hasVal (setA a k' v') k v := by
  obtain ⟨⟨p, hp, hp1⟩, hall⟩ := h
  unfold setA
  split
  · constructor
    · refine ⟨p, List.mem_map.mpr ⟨p, hp, ?_⟩, hp1⟩
      rw [if_neg]
      rw [hp1]
      exact hkk
    · intro q hq hq1
      obtain ⟨r, hr, hrq⟩ := List.mem_map.mp hq
      by_cases hrk : r.1 = k'
      · rw [if_pos hrk] at hrq
        rw [← hrq] at hq1
        simp at hq1
        rw [hq1] at hrk
        exact absurd hrk hkk
      · rw [if_neg hrk] at hrq
        subst hrq
        exact hall r hr hq1
  · constructor
    · exact ⟨p, List.mem_append_left _ hp, hp1⟩
    · intro q hq hq1
      rcases List.mem_append.mp hq with hq' | hq'
      · exact hall q hq' hq1
      · simp at hq'
        subst hq'
        simp at hq1
        exact absurd hq1.symm hkk

theorem any_setA (a : List (String × String)) (k v : String) :
    (setA a k v).any (fun p => p.1 = k) = true := by
  unfold setA
  split
  · rename_i hany
    obtain ⟨p, hp, hpk⟩ := List.any_eq_true.mp hany
    refine List.any_eq_true.mpr ⟨(p.1, v), List.mem_map.mpr ⟨p, hp, ?_⟩, hpk⟩
    simp at hpk
    simp [hpk]
  · exact List.any_eq_true.mpr ⟨(k, v), by simp⟩

theorem setA_setA_same (a : List (String × String)) (k u w : String) :
    setA (setA a k u) k w = setA a k w := by
  conv_lhs => rw [setA]
  rw [if_pos (any_setA a k u)]
  unfold setA
  split
  · rw [List.map_map]
    apply List.map_congr_left
    intro p _
    by_cases hp : p.1 = k <;> simp [hp]
  · rename_i hany
    rw [List.map_append]
    have hfix : ∀ p ∈ a, (fun p : String × String => if p.1 = k then (p.1, w) else p) p = p := by
      intro p hp
      have hnk : ¬ p.1 = k := by
        intro hc
        exact hany (List.any_eq_true.mpr ⟨p, hp, by simp [hc]⟩)
      simp [hnk]
    rw [List.map_congr_left hfix]
    simp

theorem lookupA_setA_other {a : List (String × String)} {k k' v : String}
    (hkk : k' ≠ k) : lookupA (setA a k v) k' = lookupA a k' := by
  unfold setA
  split
  · unfold lookupA
    rw [List.find?_map]
    have hcomp : ((fun p : String × String => decide (p.1 = k')) ∘
        fun p : String × String => if p.1 = k then (p.1, v) else p)
        = fun p : String × String => decide (p.1 = k') := by
      funext p
      by_cases hp : p.1 = k <;> simp [hp]
    rw [hcomp]
    cases hfind : List.find? (fun p : String × String => decide (p.1 = k')) a with
    | none => simp
    | some q =>
      have hq : q.1 = k' := by
        have := List.find?_some hfind
        simpa using this
      have hqk : ¬ q.1 = k := by
        rw [hq]
        exact hkk
      simp [hqk]
  · unfold lookupA
    rw [List.find?_append]
    have hnone : List.find? (fun p : String × String => decide (p.1 = k')) [(k, v)] = none := by
      have hne : ¬ k = k' := fun h => hkk h.symm
      simp [List.find?, hne]
    simp [hnone]

/-! ### Path lemmas -/

theorem getElem?_modifyIdx (f : HNode → HNode) (i j : Nat) (b : List HNode) :
    (modifyIdx f i b)[j]? = if i = j then (b[j]?).map f else b[j]? := by
  induction b generalizing i j with
  | nil => simp [modifyIdx]
  | cons x xs ih =>
    cases i with
    | zero =>
      cases j with
      | zero => simp [modifyIdx]
      | succ j' => simp [modifyIdx]
    | succ i' =>
      cases j with
      | zero => simp [modifyIdx]
      | succ j' =>
        simp only [modifyIdx, List.getElem?_cons_succ]
        rw [ih]
        by_cases h : i' = j' <;> simp [h]

theorem modifyIdx_fixed {f : HNode → HNode} {i : Nat} {b : List HNode}
    (h : ∀ n, b[i]? = some n → f n = n) : modifyIdx f i b = b := by
  induction b generalizing i with
  | nil => simp [modifyIdx]
  | cons x xs ih =>
    cases i with
    | zero =>
      simp only [modifyIdx]
      rw [h x (by simp)]
    | succ i' =>
      simp only [modifyIdx, List.cons.injEq, true_and]
      exact ih (fun n hn => h n (by simpa using hn))

theorem setAtPath_fixed {b : List HNode} {p : List Nat} {f : HNode → HNode}
    (h : ∀ n, nodeAt b p = some n → f n = n) : setAtPath b p f = b := by
  induction p generalizing b with
  | nil => rfl
  | cons i rest ih =>
    cases rest with
    | nil =>
      simp only [setAtPath]
      apply modifyIdx_fixed
      intro n hn
      apply h
      simp [nodeAt, hn]
    | cons j rest' =>
      simp only [setAtPath]
      apply modifyIdx_fixed
      intro n hn
      cases n with
      | text s => rfl
      | elem t a c =>
        simp only [HNode.elem.injEq, true_and]
        apply ih
        intro m hm
        apply h
        simp only [nodeAt, hn]
        exact hm

theorem setAtPath_none {b : List HNode} {p : List Nat} (f : HNode → HNode)
    (h : nodeAt b p = none) : setAtPath b p f = b := by
  apply setAtPath_fixed
  intro n hn
  rw [h] at hn
  exact Option.noConfusion hn

theorem nodeAt_single (b : List HNode) (j : Nat) : nodeAt b [j] = b[j]? := by
  cases h : b[j]? <;> simp [nodeAt, h]

theorem nodeAt_cons2 (b : List HNode) (j j' : Nat) (rest : List Nat) :
    nodeAt b (j :: j' :: rest) =
      match b[j]? with
      | some (.elem _ _ c) => nodeAt c (j' :: rest)
      | _ => none := by
  cases h : b[j]? with
  | none => simp [nodeAt, h]
  | some n => cases n <;> simp [nodeAt, h]

theorem viewAt_nil_path (b : List HNode) : viewAt b [] = none := by
  simp [viewAt, nodeAt]

theorem viewAt_single (b : List HNode) (j : Nat) :
    viewAt b [j] =
      match b[j]? with
      | some (.elem t a _) => some (t, a)
      | _ => none := by
  unfold viewAt
  rw [nodeAt_single]

theorem viewAt_cons2 (b : List HNode) (j j' : Nat) (rest : List Nat) :
    viewAt b (j :: j' :: rest) =
      match b[j]? with
      | some (.elem _ _ c) => viewAt c (j' :: rest)
      | _ => none := by
  unfold viewAt
  rw [nodeAt_cons2]
  cases h : b[j]? with
  | none => rfl
  | some n => cases n <;> rfl

theorem viewAt_single_none {b : List HNode} {j : Nat} (h : b[j]? = none) :
    viewAt b [j] = none := by rw [viewAt_single, h]

theorem viewAt_single_text {b : List HNode} {j : Nat} {s : String}
    (h : b[j]? = some (.text s)) : viewAt b [j] = none := by rw [viewAt_single, h]

theorem viewAt_single_elem {b : List HNode} {j : Nat} {t : String}
    {a : List (String × String)} {c : List HNode} (h : b[j]? = some (.elem t a c)) :
    viewAt b [j] = some (t, a) := by rw [viewAt_single, h]

theorem viewAt_cons2_none {b : List HNode} {j j' : Nat} {r : List Nat}
    (h : b[j]? = none) : viewAt b (j :: j' :: r) = none := by rw [viewAt_cons2, h]

theorem viewAt_cons2_text {b : List HNode} {j j' : Nat} {r : List Nat} {s : String}
    (h : b[j]? = some (.text s)) : viewAt b (j :: j' :: r) = none := by rw [viewAt_cons2, h]

theorem viewAt_cons2_elem {b : List HNode} {j j' : Nat} {r : List Nat} {t : String}
    {a : List (String × String)} {c : List HNode} (h : b[j]? = some (.elem t a c)) :
    viewAt b (j :: j' :: r) = viewAt c (j' :: r) := by rw [viewAt_cons2, h]

theorem setAtPath_single (b : List HNode) (i : Nat) (f : HNode → HNode) :
    setAtPath b [i] f = modifyIdx f i b := rfl

theorem setAtPath_cons2 (b : List HNode) (i k : Nat) (r : List Nat) (f : HNode → HNode) :
    setAtPath b (i :: k :: r) f =
      modifyIdx
        (fun n =>
          match n with
          | .elem t a c => .elem t a (setAtPath c (k :: r) f)
          | .text s => .text s) i b := rfl

theorem viewAt_setAtPath (b : List HNode) (q p : List Nat) (a v : String) :
    viewAt (setAtPath b q (nodeStore a v)) p =
      if p = q then (viewAt b q).map (fun ta => (ta.1, storeAttrs a v ta.2))
      else viewAt b p := by
  induction q generalizing b p with
  | nil =>
    by_cases hp : p = []
    · subst hp
      simp [setAtPath, viewAt_nil_path]
    · simp [setAtPath, hp]
  | cons i qrest ih =>
    cases p with
    | nil =>
      have hne : ¬ ([] : List Nat) = i :: qrest := by simp
      rw [if_neg hne]
      rw [viewAt_nil_path, viewAt_nil_path]
    | cons j prest =>
      by_cases hij : i = j
      · subst hij
        cases qrest with
        | nil =>
          rw [setAtPath_single]
          cases h : b[i]? with
          | none =>
            have hm : (modifyIdx (nodeStore a v) i b)[i]? = none := by
              rw [getElem?_modifyIdx, if_pos rfl, h]; rfl
            cases prest with
            | nil =>
              rw [if_pos rfl, viewAt_single_none hm, viewAt_single_none h]; rfl
            | cons j' prest' =>
              have hne : ¬ (i :: j' :: prest') = [i] := by simp
              rw [if_neg hne, viewAt_cons2_none hm, viewAt_cons2_none h]
          | some n =>
            cases n with
            | text s =>
              have hm : (modifyIdx (nodeStore a v) i b)[i]? = some (.text s) := by
                rw [getElem?_modifyIdx, if_pos rfl, h]; rfl
              cases prest with
              | nil =>
                rw [if_pos rfl, viewAt_single_text hm, viewAt_single_text h]; rfl
              | cons j' prest' =>
                have hne : ¬ (i :: j' :: prest') = [i] := by simp
                rw [if_neg hne, viewAt_cons2_text hm, viewAt_cons2_text h]
            | elem t al c =>
              have hm : (modifyIdx (nodeStore a v) i b)[i]?
                  = some (.elem t (storeAttrs a v al) c) := by
                rw [getElem?_modifyIdx, if_pos rfl, h]; rfl
              cases prest with
              | nil =>
                rw [if_pos rfl, viewAt_single_elem hm, viewAt_single_elem h]; rfl
              | cons j' prest' =>
                have hne : ¬ (i :: j' :: prest') = [i] := by simp
                rw [if_neg hne, viewAt_cons2_elem hm, viewAt_cons2_elem h]
        | cons k qrest' =>
          rw [setAtPath_cons2]
          cases h : b[i]? with
          | none =>
            have hm : (modifyIdx (fun n =>
                match n with
                | .elem t2 a2 c2 => HNode.elem t2 a2 (setAtPath c2 (k :: qrest') (nodeStore a v))
                | .text s2 => HNode.text s2) i b)[i]? = none := by
              rw [getElem?_modifyIdx, if_pos rfl, h]; rfl
            cases prest with
            | nil =>
              have hne : ¬ ([i] : List Nat) = i :: k :: qrest' := by simp
              rw [if_neg hne, viewAt_single_none hm, viewAt_single_none h]
            | cons j' prest' =>
              by_cases hpq : (i :: j' :: prest') = (i :: k :: qrest')
              · rw [if_pos hpq, viewAt_cons2_none hm, viewAt_cons2_none h]; rfl
              · rw [if_neg hpq, viewAt_cons2_none hm, viewAt_cons2_none h]
          | some n =>
            cases n with
            | text s =>
              have hm : (modifyIdx (fun n =>
                  match n with
                  | .elem t2 a2 c2 => HNode.elem t2 a2 (setAtPath c2 (k :: qrest') (nodeStore a v))
                  | .text s2 => HNode.text s2) i b)[i]? = some (.text s) := by
                rw [getElem?_modifyIdx, if_pos rfl, h]; rfl
              cases prest with
              | nil =>
                have hne : ¬ ([i] : List Nat) = i :: k :: qrest' := by simp
                rw [if_neg hne, viewAt_single_text hm, viewAt_single_text h]
              | cons j' prest' =>
                by_cases hpq : (i :: j' :: prest') = (i :: k :: qrest')
                · rw [if_pos hpq, viewAt_cons2_text hm, viewAt_cons2_text h]; rfl
                · rw [if_neg hpq, viewAt_cons2_text hm, viewAt_cons2_text h]
            | elem t al c =>
              have hm : (modifyIdx (fun n =>
                  match n with
                  | .elem t2 a2 c2 => HNode.elem t2 a2 (setAtPath c2 (k :: qrest') (nodeStore a v))
                  | .text s2 => HNode.text s2) i b)[i]?
                  = some (.elem t al (setAtPath c (k :: qrest') (nodeStore a v))) := by
                rw [getElem?_modifyIdx, if_pos rfl, h]; rfl
              cases prest with
              | nil =>
                have hne : ¬ ([i] : List Nat) = i :: k :: qrest' := by simp
                rw [if_neg hne, viewAt_single_elem hm, viewAt_single_elem h]
              | cons j' prest' =>
                rw [viewAt_cons2_elem hm, viewAt_cons2_elem h, ih c (j' :: prest')]
                by_cases hpq : (j' :: prest') = (k :: qrest')
                · rw [if_pos hpq, if_pos (by rw [hpq])]
                · have hpq2 : ¬ (i :: j' :: prest') = (i :: k :: qrest') := by
                    simpa using hpq
                  rw [if_neg hpq, if_neg hpq2, viewAt_cons2_elem h]
      · have hne : ¬ (j :: prest) = (i :: qrest) := by
          intro hc
          injection hc with h1 _
          exact hij h1.symm
        rw [if_neg hne]
        have hg : ∀ g : HNode → HNode, (modifyIdx g i b)[j]? = b[j]? := by
          intro g
          rw [getElem?_modifyIdx, if_neg hij]
        cases qrest with
        | nil =>
          rw [setAtPath_single]
          cases prest with
          | nil =>
            rw [viewAt_single, viewAt_single, hg]
          | cons j' prest' =>
            rw [viewAt_cons2, viewAt_cons2, hg]
        | cons k qrest' =>
          rw [setAtPath_cons2]
          cases prest with
          | nil =>
            rw [viewAt_single, viewAt_single, hg]
          | cons j' prest' =>
            rw [viewAt_cons2, viewAt_cons2, hg]

/-! ### Store invariant lemmas -/

theorem storedOKal_storeAttrs (a v : String) (al : List (String × String)) :
    storedOKal a v (storeAttrs a v al) := by
  constructor
  · exact hasVal_setA _ _ _
  · intro hne
    exact hasVal_setA_other hne (hasVal_setA al a v)

theorem storedOKal_storeAttrs_other {a v a' v' : String} {al : List (String × String)}
    (hne : a ≠ a') (h : storedOKal a v al) : storedOKal a v (storeAttrs a' v' al) := by
  constructor
  · exact hasVal_setA _ _ _
  · intro hm
    exact hasVal_setA_other hm (hasVal_setA_other hne (h.2 hm))

theorem storeAttrs_of_storedOKal {a v : String} {al : List (String × String)}
    (h : storedOKal a v al) : storeAttrs a v al = al := by
  by_cases ha : a = seoMark
  · subst ha
    unfold storeAttrs
    rw [setA_setA_same, setA_of_hasVal h.1]
  · unfold storeAttrs
    rw [setA_of_hasVal (h.2 ha), setA_of_hasVal h.1]

theorem tagAt_applyStore (b : List HNode) (s : Store) (p : List Nat) :
    tagAt (applyStore b s) p = tagAt b p := by
  unfold tagAt applyStore
  rw [viewAt_setAtPath]
  by_cases hp : p = s.path
  · rw [if_pos hp, hp, Option.map_map]
    rfl
  · rw [if_neg hp]

theorem tagAt_applyStores (ss : List Store) (b : List HNode) (p : List Nat) :
    tagAt (applyStores ss b) p = tagAt b p := by
  induction ss generalizing b with
  | nil => rfl
  | cons s rest ih =>
    show tagAt (applyStores rest (applyStore b s)) p = tagAt b p
    rw [ih, tagAt_applyStore]

theorem storedAt_applyStore_self (b : List HNode) (s : Store) :
    storedAt s (applyStore b s) := by
  unfold storedAt applyStore
  rw [viewAt_setAtPath, if_pos rfl]
  cases h : viewAt b s.path with
  | none => exact trivial
  | some ta =>
    simp only [Option.map_some']
    exact storedOKal_storeAttrs s.attr s.val ta.2

theorem storedAt_applyStore_other {b : List HNode} {s s' : Store}
    (hne : (s'.path, s'.attr) ≠ (s.path, s.attr)) (h : storedAt s b) :
    storedAt s (applyStore b s') := by
  unfold storedAt applyStore
  rw [viewAt_setAtPath]
  by_cases hp : s.path = s'.path
  · rw [if_pos hp]
    cases hv : viewAt b s.path with
    | none =>
      rw [← hp, hv]
      exact trivial
    | some ta =>
      rw [hp] at hv
      rw [hv]
      simp only [Option.map_some']
      have hattr : s.attr ≠ s'.attr := by
        intro hc
        exact hne (by rw [hc, hp])
      unfold storedAt at h
      rw [hp, hv] at h
      exact storedOKal_storeAttrs_other hattr h
  · rw [if_neg hp]
    exact h

theorem storedAt_applyStores_other {ss : List Store} {b : List HNode} {s : Store}
    (hdiff : ∀ s' ∈ ss, (s'.path, s'.attr) ≠ (s.path, s.attr)) (h : storedAt s b) :
    storedAt s (applyStores ss b) := by
  induction ss generalizing b with
  | nil => exact h
  | cons s0 rest ih =>
    show storedAt s (applyStores rest (applyStore b s0))
    exact ih (fun s' hs' => hdiff s' (List.mem_cons_of_mem _ hs'))
      (storedAt_applyStore_other (hdiff s0 (List.mem_cons_self _ _)) h)

theorem storedAt_all {ss : List Store} (b : List HNode)
    (hnd : (ss.map (fun s => (s.path, s.attr))).Nodup) :
    ∀ s ∈ ss, storedAt s (applyStores ss b) := by
  induction ss generalizing b with
  | nil => intro s hs; exact absurd hs (List.not_mem_nil s)
  | cons s0 rest ih =>
    intro s hs
    have hnd' : (rest.map (fun s => (s.path, s.attr))).Nodup := (List.nodup_cons.mp hnd).2
    rcases List.mem_cons.mp hs with hs0 | hsr
    · subst hs0
      show storedAt s (applyStores rest (applyStore b s))
      apply storedAt_applyStores_other
      · intro s' hs'
        intro hc
        have := (List.nodup_cons.mp hnd).1
        exact this (List.mem_map.mpr ⟨s', hs', hc⟩)
      · exact storedAt_applyStore_self b s
    · exact ih (applyStore b s0) hnd' s hsr

theorem applyStore_absorb {b : List HNode} {s : Store} (h : storedAt s b) :
    applyStore b s = b := by
  unfold applyStore
  apply setAtPath_fixed
  intro n hn
  cases n with
  | text s' => rfl
  | elem t al c =>
    have hv : viewAt b s.path = some (t, al) := by
      unfold viewAt
      rw [hn]
    unfold storedAt at h
    rw [hv] at h
    show HNode.elem t (storeAttrs s.attr s.val al) c = HNode.elem t al c
    rw [storeAttrs_of_storedOKal h]

theorem applyStores_absorb {ss : List Store} {B : List HNode}
    (h : ∀ s ∈ ss, storedAt s B) : applyStores ss B = B := by
  induction ss with
  | nil => rfl
  | cons s0 rest ih =>
    show applyStores rest (applyStore B s0) = B
    rw [applyStore_absorb (h s0 (List.mem_cons_self _ _))]
    exact ih (fun s hs => h s (List.mem_cons_of_mem _ hs))

theorem applyStores_idem (ss : List Store) (b : List HNode)
    (hnd : (ss.map (fun s => (s.path, s.attr))).Nodup) :
    applyStores ss (applyStores ss b) = applyStores ss b :=
  applyStores_absorb (storedAt_all b hnd)

/-! ### Head key lemmas -/

theorem lookupA_setA_self (a : List (String × String)) (k v : String) :
    lookupA (setA a k v) k = some v := by
  unfold setA
  split
  · rename_i hany
    obtain ⟨p, hp, hpk⟩ := List.any_eq_true.mp hany
    simp only [decide_eq_true_eq] at hpk
    unfold lookupA
    rw [List.find?_map]
    have hcomp : ((fun q : String × String => decide (q.1 = k)) ∘
        fun q : String × String => if q.1 = k then (q.1, v) else q)
        = fun q : String × String => decide (q.1 = k) := by
      funext q
      by_cases hq : q.1 = k <;> simp [hq]
    rw [hcomp]
    cases hfind : List.find? (fun q : String × String => decide (q.1 = k)) a with
    | none =>
      rw [List.find?_eq_none] at hfind
      exact absurd (by simp [hpk]) (hfind p hp)
    | some q =>
      have hq : q.1 = k := by simpa using List.find?_some hfind
      simp [hq]
  · unfold lookupA
    rw [List.find?_append]
    cases hfind : List.find? (fun q : String × String => decide (q.1 = k)) a with
    | none => simp [List.find?]
    | some q =>
      rename_i hany
      have hq : q.1 = k := by simpa using List.find?_some hfind
      exfalso
      exact hany (List.any_eq_true.mpr ⟨q, List.mem_of_find?_eq_some hfind, by simp [hq]⟩)

theorem nodeKey_elem_cases {t : String} {a : List (String × String)} {c : List HNode}
    {k : HKey} (h : nodeKey (.elem t a c) = some k) :
    (t = "title" ∧ k = .title)
    ∨ (t = "meta" ∧ ∃ nm, lookupA a "name" = some nm ∧ k = .metaName nm)
    ∨ (t = "meta" ∧ lookupA a "name" = none
        ∧ ∃ pm, lookupA a "property" = some pm ∧ k = .metaProp pm)
    ∨ (t = "link" ∧ ∃ r, lookupA a "rel" = some r ∧ k = .linkRel r (lookupA a "hreflang"))
    ∨ (t = "style" ∧ (lookupA a seoMark).isSome ∧ k = .styleBlock) := by
  simp only [nodeKey] at h
  split_ifs at h with h1 h2 h3 h4 h5
  · left
    exact ⟨h1, by injection h with h'; exact h'.symm⟩
  · cases hn : lookupA a "name" with
    | some nm =>
      right; left
      rw [hn] at h
      exact ⟨h2, nm, rfl, by injection h with h'; exact h'.symm⟩
    | none =>
      cases hp : lookupA a "property" with
      | some pm =>
        right; right; left
        rw [hn, hp] at h
        exact ⟨h2, rfl, pm, rfl, by injection h with h'; exact h'.symm⟩
      | none =>
        rw [hn, hp] at h
        exact Option.noConfusion h
  · cases hr : lookupA a "rel" with
    | some r =>
      right; right; right; left
      rw [hr] at h
      exact ⟨h3, r, rfl, by injection h with h'; exact h'.symm⟩
    | none =>
      rw [hr] at h
      exact Option.noConfusion h
  · right; right; right; right
    exact ⟨h4, h5, by injection h with h'; exact h'.symm⟩

theorem nodeKey_updNode {n : HNode} {k : HKey} (v : String) (h : nodeKey n = some k) :
    nodeKey (updNode k v n) = some k := by
  cases n with
  | text s => simp [nodeKey] at h
  | elem t a c =>
    rcases nodeKey_elem_cases h with ⟨ht, hk⟩ | ⟨ht, nm, hn, hk⟩ | ⟨ht, hn, pm, hp, hk⟩
      | ⟨ht, r, hr, hk⟩ | ⟨ht, hm, hk⟩
    · subst hk; subst ht
      simp [updNode, nodeKey]
    · subst hk; subst ht
      have hname : lookupA (setA (setA a "content" v) seoMark seoMarkVal) "name" = some nm := by
        rw [lookupA_setA_other (by rw [seoMark]; decide),
          lookupA_setA_other (by decide)]
        exact hn
      simp [updNode, nodeKey, hname]
    · subst hk; subst ht
      have hname : lookupA (setA (setA a "content" v) seoMark seoMarkVal) "name" = none := by
        rw [lookupA_setA_other (by rw [seoMark]; decide),
          lookupA_setA_other (by decide)]
        exact hn
      have hprop : lookupA (setA (setA a "content" v) seoMark seoMarkVal) "property" = some pm := by
        rw [lookupA_setA_other (by rw [seoMark]; decide),
          lookupA_setA_other (by decide)]
        exact hp
      simp [updNode, nodeKey, hname, hprop]
    · subst hk; subst ht
      have hrel : lookupA (setA (setA a "href" v) seoMark seoMarkVal) "rel" = some r := by
        rw [lookupA_setA_other (by rw [seoMark]; decide),
          lookupA_setA_other (by decide)]
        exact hr
      have hhl : lookupA (setA (setA a "href" v) seoMark seoMarkVal) "hreflang"
          = lookupA a "hreflang" := by
        rw [lookupA_setA_other (by rw [seoMark]; decide),
          lookupA_setA_other (by decide)]
      simp [updNode, nodeKey, hrel, hhl]
    · subst hk; subst ht
      have hmk : lookupA (setA a seoMark seoMarkVal) seoMark = some seoMarkVal :=
        lookupA_setA_self a seoMark seoMarkVal
      simp [updNode, nodeKey, hmk]

theorem nodeKey_newNode (k : HKey) (v : String) : nodeKey (newNode k v) = some k := by
  cases k with
  | title => simp [newNode, nodeKey]
  | metaName nm =>
    simp [newNode, nodeKey, lookupA, List.find?, seoMark]
  | metaProp pm =>
    simp [newNode, nodeKey, lookupA, List.find?, seoMark]
  | linkRel r h =>
    cases h with
    | none => simp [newNode, nodeKey, lookupA, List.find?, seoMark]
    | some s => simp [newNode, nodeKey, lookupA, List.find?, seoMark]
  | styleBlock =>
    simp [newNode, nodeKey, lookupA, List.find?, seoMark]

theorem updOK_updNode {n : HNode} {k : HKey} (v : String) (h : nodeKey n = some k) :
    updOK k v (updNode k v n) := by
  cases n with
  | text s => simp [nodeKey] at h
  | elem t a c =>
    cases k with
    | title =>
      exact ⟨hasVal_setA a seoMark seoMarkVal, rfl⟩
    | metaName nm =>
      exact ⟨hasVal_setA_other (by rw [seoMark]; decide) (hasVal_setA a "content" v),
        hasVal_setA _ seoMark seoMarkVal⟩
    | metaProp pm =>
      exact ⟨hasVal_setA_other (by rw [seoMark]; decide) (hasVal_setA a "content" v),
        hasVal_setA _ seoMark seoMarkVal⟩
    | linkRel r hl =>
      exact ⟨hasVal_setA_other (by rw [seoMark]; decide) (hasVal_setA a "href" v),
        hasVal_setA _ seoMark seoMarkVal⟩
    | styleBlock =>
      exact ⟨hasVal_setA a seoMark seoMarkVal, rfl⟩

theorem updOK_newNode (k : HKey) (v : String) : updOK k v (newNode k v) := by
  cases k with
  | title =>
    refine ⟨⟨⟨(seoMark, seoMarkVal), by simp⟩, ?_⟩, rfl⟩
    intro p hp _
    simp at hp
    simp [hp]
  | metaName nm =>
    refine ⟨⟨⟨("content", v), by simp [newNode]⟩, ?_⟩,
      ⟨(seoMark, seoMarkVal), by simp [newNode]⟩, ?_⟩
    · intro p hp hp1
      simp [newNode] at hp
      rcases hp with rfl | rfl | rfl <;> simp [seoMark, seoMarkVal] at hp1 ⊢
    · intro p hp hp1
      simp [newNode] at hp
      rcases hp with rfl | rfl | rfl <;> simp [seoMark, seoMarkVal] at hp1 ⊢
  | metaProp pm =>
    refine ⟨⟨⟨("content", v), by simp [newNode]⟩, ?_⟩,
      ⟨(seoMark, seoMarkVal), by simp [newNode]⟩, ?_⟩
    · intro p hp hp1
      simp [newNode] at hp
      rcases hp with rfl | rfl | rfl <;> simp [seoMark, seoMarkVal] at hp1 ⊢
    · intro p hp hp1
      simp [newNode] at hp
      rcases hp with rfl | rfl | rfl <;> simp [seoMark, seoMarkVal] at hp1 ⊢
  | linkRel r hl =>
    refine ⟨⟨⟨("href", v), ?_, rfl⟩, ?_⟩, ⟨(seoMark, seoMarkVal), ?_, rfl⟩, ?_⟩
    · cases hl <;> simp [newNode]
    · intro p hp hp1
      cases hl with
      | none =>
        simp [newNode] at hp
        rcases hp with rfl | rfl | rfl <;> simp [seoMark, seoMarkVal] at hp1 ⊢
      | some s =>
        simp [newNode] at hp
        rcases hp with rfl | rfl | rfl | rfl <;> simp [seoMark, seoMarkVal] at hp1 ⊢
    · cases hl <;> simp [newNode]
    · intro p hp hp1
      cases hl with
      | none =>
        simp [newNode] at hp
        rcases hp with rfl | rfl | rfl <;> simp [seoMark, seoMarkVal] at hp1 ⊢
      | some s =>
        simp [newNode] at hp
        rcases hp with rfl | rfl | rfl | rfl <;> simp [seoMark, seoMarkVal] at hp1 ⊢
  | styleBlock =>
    refine ⟨⟨⟨(seoMark, seoMarkVal), by simp⟩, ?_⟩, rfl⟩
    intro p hp _
    simp at hp
    simp [hp]

theorem updNode_of_updOK {n : HNode} {k : HKey} {v : String} (h : updOK k v n) :
    updNode k v n = n := by
  cases n with
  | text s => exact absurd h (by simp [updOK])
  | elem t a c =>
    cases k with
    | title =>
      obtain ⟨h1, h2⟩ := h
      simp only [updNode]
      rw [setA_of_hasVal h1, h2]
    | metaName nm =>
      obtain ⟨h1, h2⟩ := h
      simp only [updNode]
      rw [setA_of_hasVal h1, setA_of_hasVal h2]
    | metaProp pm =>
      obtain ⟨h1, h2⟩ := h
      simp only [updNode]
      rw [setA_of_hasVal h1, setA_of_hasVal h2]
    | linkRel r hl =>
      obtain ⟨h1, h2⟩ := h
      simp only [updNode]
      rw [setA_of_hasVal h1, setA_of_hasVal h2]
    | styleBlock =>
      obtain ⟨h1, h2⟩ := h
      simp only [updNode]
      rw [setA_of_hasVal h1, h2]

theorem find?_updateFirst_self {p : HNode → Bool} {g : HNode → HNode} {l : List HNode}
    {n : HNode} (h : l.find? p = some n) (hg : p (g n) = true) :
    (updateFirst p g l).find? p = some (g n) := by
  induction l with
  | nil => simp [List.find?] at h
  | cons x xs ih =>
    by_cases hx : p x
    · rw [List.find?_cons_of_pos _ hx] at h
      injection h with h'
      subst h'
      simp only [updateFirst, if_pos hx]
      rw [List.find?_cons_of_pos _ hg]
    · rw [List.find?_cons_of_neg _ (by simp [hx])] at h
      simp only [updateFirst, if_neg (by simp [hx] : ¬ (p x = true))]
      rw [List.find?_cons_of_neg _ (by simp [hx])]
      exact ih h

theorem updateFirst_fixed {p : HNode → Bool} {g : HNode → HNode} {l : List HNode}
    {n : HNode} (h : l.find? p = some n) (hg : g n = n) : updateFirst p g l = l := by
  induction l with
  | nil => rfl
  | cons x xs ih =>
    by_cases hx : p x
    · rw [List.find?_cons_of_pos _ hx] at h
      injection h with h'
      subst h'
      simp only [updateFirst, if_pos hx, hg]
    · rw [List.find?_cons_of_neg _ (by simp [hx])] at h
      simp only [updateFirst, if_neg (by simp [hx] : ¬ (p x = true))]
      rw [ih h]

theorem find?_updateFirst_other {p q : HNode → Bool} {g : HNode → HNode} {l : List HNode}
    (hq : ∀ m, q m = true → p m = false ∧ p (g m) = false) :
    (updateFirst q g l).find? p = l.find? p := by
  induction l with
  | nil => rfl
  | cons x xs ih =>
    by_cases hx : q x
    · simp only [updateFirst, if_pos hx]
      rw [List.find?_cons_of_neg _ (by simp [(hq x hx).2]),
        List.find?_cons_of_neg _ (by simp [(hq x hx).1])]
    · simp only [updateFirst, if_neg (by simp [hx] : ¬ (q x = true))]
      by_cases hpx : p x
      · rw [List.find?_cons_of_pos _ hpx, List.find?_cons_of_pos _ hpx]
      · rw [List.find?_cons_of_neg _ (by simp [hpx]),
          List.find?_cons_of_neg _ (by simp [hpx])]
        exact ih

theorem find?_insertByRank_of_neg {p : HNode → Bool} {x : HNode} {l : List HNode}
    (hx : p x = false) : (insertByRank x l).find? p = l.find? p := by
  induction l with
  | nil => simp [insertByRank, List.find?, hx]
  | cons y ys ih =>
    simp only [insertByRank]
    split
    · rw [List.find?_cons_of_neg _ (by simp [hx])]
    · by_cases hy : p y
      · rw [List.find?_cons_of_pos _ hy, List.find?_cons_of_pos _ hy]
      · rw [List.find?_cons_of_neg _ (by simp [hy]), List.find?_cons_of_neg _ (by simp [hy])]
        exact ih

theorem find?_insertByRank_of_pos {p : HNode → Bool} {x : HNode} {l : List HNode}
    (hx : p x = true) (hl : ∀ y ∈ l, ¬ p y = true) :
    (insertByRank x l).find? p = some x := by
  induction l with
  | nil => simp [insertByRank, List.find?, hx]
  | cons y ys ih =>
    simp only [insertByRank]
    split
    · rw [List.find?_cons_of_pos _ hx]
    · rw [List.find?_cons_of_neg _ (by simp [hl y (List.mem_cons_self _ _)])]
      exact ih (fun z hz => hl z (List.mem_cons_of_mem _ hz))

theorem keyState_upsert_self (k : HKey) (v : String) (h : List HNode) :
    keyState k v (upsertHead k v h) := by
  unfold upsertHead
  by_cases hany : h.any (keyIs k)
  · rw [if_pos hany]
    obtain ⟨n, hn, hkn⟩ := List.any_eq_true.mp hany
    cases hfind : h.find? (keyIs k) with
    | none =>
      rw [List.find?_eq_none] at hfind
      exact absurd hkn (hfind n hn)
    | some m =>
      have hkm : keyIs k m = true := List.find?_some hfind
      have hkey : nodeKey m = some k := by simpa [keyIs] using hkm
      have hg : keyIs k (updNode k v m) = true := by
        simp [keyIs, nodeKey_updNode v hkey]
      unfold keyState
      rw [find?_updateFirst_self hfind hg]
      exact updOK_updNode v hkey
  · rw [if_neg hany]
    unfold keyState
    have hnew : keyIs k (newNode k v) = true := by
      simp [keyIs, nodeKey_newNode]
    rw [find?_insertByRank_of_pos hnew]
    · exact updOK_newNode k v
    · intro y hy hpy
      exact hany (List.any_eq_true.mpr ⟨y, hy, hpy⟩)

theorem keyState_upsert_other {k k' : HKey} {v v' : String} {h : List HNode}
    (hne : k' ≠ k) (hs : keyState k v h) : keyState k v (upsertHead k' v' h) := by
  unfold upsertHead
  by_cases hany : h.any (keyIs k')
  · rw [if_pos hany]
    unfold keyState at hs ⊢
    rw [find?_updateFirst_other]
    · exact hs
    · intro m hm
      have hkey : nodeKey m = some k' := by simpa [keyIs] using hm
      constructor
      · simp [keyIs, hkey]
        intro hc
        exact hne hc
      · simp [keyIs, nodeKey_updNode v' hkey]
        intro hc
        exact hne hc
  · rw [if_neg hany]
    unfold keyState at hs ⊢
    rw [find?_insertByRank_of_neg]
    · exact hs
    · simp [keyIs, nodeKey_newNode]
      intro hc
      exact hne hc

theorem keyState_applyUpserts_other {kvs : List (HKey × String)} {k : HKey} {v : String}
    {h : List HNode} (hdiff : ∀ kv ∈ kvs, kv.1 ≠ k) (hs : keyState k v h) :
    keyState k v (applyUpserts kvs h) := by
  induction kvs generalizing h with
  | nil => exact hs
  | cons kv rest ih =>
    show keyState k v (applyUpserts rest (upsertHead kv.1 kv.2 h))
    exact ih (fun x hx => hdiff x (List.mem_cons_of_mem _ hx))
      (keyState_upsert_other (hdiff kv (List.mem_cons_self _ _)) hs)

theorem keyState_all {kvs : List (HKey × String)} (h : List HNode)
    (hnd : (kvs.map (fun kv => kv.1)).Nodup) :
    ∀ kv ∈ kvs, keyState kv.1 kv.2 (applyUpserts kvs h) := by
  induction kvs generalizing h with
  | nil => intro kv hkv; exact absurd hkv (List.not_mem_nil kv)
  | cons kv0 rest ih =>
    intro kv hkv
    have hnd' : (rest.map (fun kv => kv.1)).Nodup := (List.nodup_cons.mp hnd).2
    rcases List.mem_cons.mp hkv with hkv0 | hkvr
    · subst hkv0
      show keyState kv.1 kv.2 (applyUpserts rest (upsertHead kv.1 kv.2 h))
      apply keyState_applyUpserts_other
      · intro x hx hc
        exact (List.nodup_cons.mp hnd).1 (List.mem_map.mpr ⟨x, hx, hc⟩)
      · exact keyState_upsert_self kv.1 kv.2 h
    · exact ih (upsertHead kv0.1 kv0.2 h) hnd' kv hkvr

theorem upsert_absorb {k : HKey} {v : String} {h : List HNode}
    (hs : keyState k v h) : upsertHead k v h = h := by
  unfold keyState at hs
  cases hfind : h.find? (keyIs k) with
  | none => rw [hfind] at hs; exact absurd hs (by simp)
  | some n =>
    rw [hfind] at hs
    unfold upsertHead
    rw [if_pos]
    · exact updateFirst_fixed hfind (updNode_of_updOK hs)
    · exact List.any_eq_true.mpr ⟨n, List.mem_of_find?_eq_some hfind, List.find?_some hfind⟩

theorem applyUpserts_absorb {kvs : List (HKey × String)} {H : List HNode}
    (hs : ∀ kv ∈ kvs, keyState kv.1 kv.2 H) : applyUpserts kvs H = H := by
  induction kvs with
  | nil => rfl
  | cons kv rest ih =>
    show applyUpserts rest (upsertHead kv.1 kv.2 H) = H
    rw [upsert_absorb (hs kv (List.mem_cons_self _ _))]
    exact ih (fun x hx => hs x (List.mem_cons_of_mem _ hx))

theorem applyUpserts_idem (kvs : List (HKey × String)) (h : List HNode)
    (hnd : (kvs.map (fun kv => kv.1)).Nodup) :
    applyUpserts kvs (applyUpserts kvs h) = applyUpserts kvs h :=
  applyUpserts_absorb (keyState_all h hnd)

/-! ### Deduplication and sorting lemmas -/

theorem mem_of_mem_dedupBy {α κ : Type} [DecidableEq κ] {key : α → κ} {l : List α}
    {x : α} (hx : x ∈ dedupBy key l) : x ∈ l := by
  induction l with
  | nil => exact absurd hx (List.not_mem_nil x)
  | cons y ys ih =>
    unfold dedupBy at hx
    split at hx
    · exact List.mem_cons_of_mem _ (ih hx)
    · rcases List.mem_cons.mp hx with h | h
      · exact h ▸ List.mem_cons_self _ _
      · exact List.mem_cons_of_mem _ (ih h)

theorem nodup_map_dedupBy {α κ : Type} [DecidableEq κ] (key : α → κ) (l : List α) :
    ((dedupBy key l).map key).Nodup := by
  induction l with
  | nil => exact List.nodup_nil
  | cons y ys ih =>
    unfold dedupBy
    split
    · exact ih
    · rename_i hnone
      rw [List.map_cons, List.nodup_cons]
      refine ⟨?_, ih⟩
      intro hmem
      obtain ⟨x, hx, hxy⟩ := List.mem_map.mp hmem
      exact hnone (List.any_eq_true.mpr
        ⟨x, mem_of_mem_dedupBy hx, by simp [hxy]⟩)

theorem perm_insSorted {α : Type} (le : α → α → Bool) (x : α) (l : List α) :
    List.Perm (insSorted le x l) (x :: l) := by
  induction l with
  | nil => exact List.Perm.refl _
  | cons y ys ih =>
    unfold insSorted
    split
    · exact List.Perm.refl _
    · exact List.Perm.trans (List.Perm.cons y ih) (List.Perm.swap x y ys)

theorem perm_insSort {α : Type} (le : α → α → Bool) (l : List α) :
    List.Perm (insSort le l) l := by
  induction l with
  | nil => exact List.Perm.refl _
  | cons y ys ih =>
    unfold insSort
    exact List.Perm.trans (perm_insSorted le y (insSort le ys)) (List.Perm.cons y ih)

theorem nodup_map_insSort {α κ : Type} (le : α → α → Bool) (key : α → κ) (l : List α)
    (h : (l.map key).Nodup) : ((insSort le l).map key).Nodup :=
  (List.Perm.nodup_iff (List.Perm.map key (perm_insSort le l))).mpr h

theorem headKVs_keys_nodup (plan : PatchPlan) :
    ((headKVs plan).map (fun kv => kv.1)).Nodup := by
  unfold headKVs
  exact nodup_map_insSort _ _ _ (nodup_map_dedupBy _ _)

theorem bodyStores_keys_nodup (b : List HNode) (plan : PatchPlan) :
    ((bodyStores b plan).map (fun s => (s.path, s.attr))).Nodup := by
  unfold bodyStores
  exact nodup_map_insSort _ _ _ (nodup_map_dedupBy _ _)

/-! ### Gate stability -/

theorem gateStore_congr {b1 b2 : List HNode}
    (hT : ∀ p, tagAt b1 p = tagAt b2 p) (op : PatchOp) :
    gateStore b1 op = gateStore b2 op := by
  cases op with
  | replaceAttr aid rsn target a v =>
    simp only [gateStore]
    cases target.anchor with
    | none => rfl
    | some p => simp only [hT]
  | upsertTitle _ _ _ => rfl
  | upsertMetaName _ _ _ _ => rfl
  | upsertMetaProperty _ _ _ _ => rfl
  | upsertLinkRel _ _ _ _ _ => rfl
  | insertStyleScoped _ _ _ _ _ => rfl

theorem bodyStores_congr {b1 b2 : List HNode}
    (hT : ∀ p, tagAt b1 p = tagAt b2 p) (plan : PatchPlan) :
    bodyStores b1 plan = bodyStores b2 plan := by
  unfold bodyStores
  have : plan.operations.filterMap (gateStore b1)
      = plan.operations.filterMap (gateStore b2) := by
    induction plan.operations with
    | nil => rfl
    | cons op rest ih =>
      simp only [List.filterMap_cons]
      rw [gateStore_congr hT op, ih]
  rw [this]

/-! ### Idempotence of the Applier -/

theorem applyPlan_doc_head (d : Doc) (plan : PatchPlan) :
    (applyPlan d plan).doc.head = applyUpserts (headKVs plan) d.head := rfl

theorem applyPlan_doc_body (d : Doc) (plan : PatchPlan) :
    (applyPlan d plan).doc.body = applyStores (bodyStores d.body plan) d.body := rfl

theorem applyPlan_doc_idem (d : Doc) (plan : PatchPlan) :
    (applyPlan (applyPlan d plan).doc plan).doc = (applyPlan d plan).doc := by
  have hT : ∀ p, tagAt (applyPlan d plan).doc.body p = tagAt d.body p := by
    intro p
    rw [applyPlan_doc_body]
    exact tagAt_applyStores _ _ _
  have hbs : bodyStores (applyPlan d plan).doc.body plan = bodyStores d.body plan :=
    bodyStores_congr hT plan
  have hhead : applyUpserts (headKVs plan) (applyPlan d plan).doc.head
      = (applyPlan d plan).doc.head := by
    rw [applyPlan_doc_head]
    exact applyUpserts_idem _ _ (headKVs_keys_nodup plan)
  have hbody : applyStores (bodyStores (applyPlan d plan).doc.body plan)
      (applyPlan d plan).doc.body = (applyPlan d plan).doc.body := by
    rw [hbs, applyPlan_doc_body]
    exact applyStores_idem _ _ (bodyStores_keys_nodup d.body plan)
  show Doc.mk (applyUpserts (headKVs plan) (applyPlan d plan).doc.head)
      (applyStores (bodyStores (applyPlan d plan).doc.body plan) (applyPlan d plan).doc.body)
    = (applyPlan d plan).doc
  rw [hhead, hbody]

/-! ### Key uniqueness lemmas -/

theorem countKey_updateFirst (k k' : HKey) (v : String) (h : List HNode) :
    countKey k' (updateFirst (keyIs k) (updNode k v) h) = countKey k' h := by
  induction h with
  | nil => rfl
  | cons n ns ih =>
    by_cases hn : keyIs k n
    · simp only [updateFirst, if_pos hn]
      unfold countKey
      rw [List.countP_cons, List.countP_cons]
      have hkey : nodeKey n = some k := by simpa [keyIs] using hn
      have : keyIs k' (updNode k v n) = keyIs k' n := by
        simp [keyIs, nodeKey_updNode v hkey, hkey]
      rw [this]
    · simp only [updateFirst, if_neg hn]
      unfold countKey
      rw [List.countP_cons, List.countP_cons]
      unfold countKey at ih
      rw [ih]

theorem countKey_insertByRank (k' : HKey) (x : HNode) (l : List HNode) :
    countKey k' (insertByRank x l) = countKey k' l + (if keyIs k' x then 1 else 0) := by
  induction l with
  | nil => simp [insertByRank, countKey, List.countP_cons]
  | cons y ys ih =>
    simp only [insertByRank]
    split
    · unfold countKey
      simp only [List.countP_cons]
    · unfold countKey
      simp only [List.countP_cons]
      unfold countKey at ih
      rw [ih]
      by_cases hx : keyIs k' x <;> by_cases hy : keyIs k' y <;> simp [hx, hy]

theorem countKey_upsert_le_one {h : List HNode} (hle : ∀ k', countKey k' h ≤ 1)
    (k : HKey) (v : String) : ∀ k', countKey k' (upsertHead k v h) ≤ 1 := by
  intro k'
  unfold upsertHead
  by_cases hany : h.any (keyIs k)
  · rw [if_pos hany, countKey_updateFirst]
    exact hle k'
  · rw [if_neg hany, countKey_insertByRank]
    by_cases hk : keyIs k' (newNode k v)
    · have hkk : k' = k := by
        have := nodeKey_newNode k v
        simp [keyIs, this] at hk
        exact hk.symm
      subst hkk
      have hzero : countKey k' h = 0 := by
        unfold countKey
        rw [List.countP_eq_zero]
        intro n hn
        intro hc
        exact hany (List.any_eq_true.mpr ⟨n, hn, hc⟩)
      rw [hzero, if_pos hk]
    · rw [if_neg hk]
      simpa using hle k'

theorem countKey_applyUpserts_le_one {h : List HNode} (hle : ∀ k', countKey k' h ≤ 1)
    (kvs : List (HKey × String)) : ∀ k', countKey k' (applyUpserts kvs h) ≤ 1 := by
  induction kvs generalizing h with
  | nil => exact hle
  | cons kv rest ih =>
    intro k'
    show countKey k' (applyUpserts rest (upsertHead kv.1 kv.2 h)) ≤ 1
    exact ih (countKey_upsert_le_one hle kv.1 kv.2) k'

theorem countKey_eq_count_filterMap (k : HKey) (h : List HNode) :
    countKey k h = (h.filterMap nodeKey).count k := by
  induction h with
  | nil => rfl
  | cons n ns ih =>
    unfold countKey
    rw [List.countP_cons]
    unfold countKey at ih
    cases hn : nodeKey n with
    | none =>
      rw [List.filterMap_cons_none hn]
      simp [keyIs, hn, ih]
    | some k' =>
      rw [List.filterMap_cons_some hn]
      by_cases hk : k' = k
      · subst hk
        rw [List.count_cons_self]
        simp [keyIs, hn, ih]
      · rw [List.count_cons_of_ne (Ne.symm hk) _]
        simp [keyIs, hn, hk, ih]

theorem countKey_le_one_of_nodup {h : List HNode}
    (hnd : (h.filterMap nodeKey).Nodup) : ∀ k, countKey k h ≤ 1 := by
  intro k
  rw [countKey_eq_count_filterMap]
  exact List.nodup_iff_count_le_one.mp hnd k

/-! ### CSS safety gate lemmas -/

theorem filterMap_filter_eq {α β : Type} (p : α → Bool) (f : α → Option β) (l : List α)
    (h : ∀ x ∈ l, p x = false → f x = none) :
    (l.filter p).filterMap f = l.filterMap f := by
  induction l with
  | nil => rfl
  | cons x xs ih =>
    by_cases hx : p x
    · rw [List.filter_cons_of_pos hx, List.filterMap_cons, List.filterMap_cons]
      cases f x <;> simp [ih (fun y hy => h y (List.mem_cons_of_mem _ hy))]
    · rw [List.filter_cons_of_neg (by simp [hx]), List.filterMap_cons,
        h x (List.mem_cons_self _ _) (by simp [hx])]
      exact ih (fun y hy => h y (List.mem_cons_of_mem _ hy))

theorem opKV_of_unsafeStyle {op : PatchOp} (h : unsafeStyleB op = true) : opKV op = none := by
  cases op <;> simp [unsafeStyleB] at h <;> rfl

theorem safeStyleText_of_unsafeStyle {op : PatchOp} (h : unsafeStyleB op = true) :
    safeStyleText op = none := by
  cases op with
  | insertStyleScoped aid rsn target rules mg =>
    simp only [unsafeStyleB, Bool.not_eq_true'] at h
    simp [safeStyleText, h]
  | upsertTitle _ _ _ => rfl
  | upsertMetaName _ _ _ _ => rfl
  | upsertMetaProperty _ _ _ _ => rfl
  | upsertLinkRel _ _ _ _ _ => rfl
  | replaceAttr _ _ _ _ _ => simp [unsafeStyleB] at h

theorem gateStore_of_unsafeStyle {b : List HNode} {op : PatchOp}
    (h : unsafeStyleB op = true) : gateStore b op = none := by
  cases op <;> simp [unsafeStyleB] at h <;> rfl

theorem headKVs_filter_unsafeOps (plan : PatchPlan) :
    headKVs ⟨plan.operations.filter (fun op => !unsafeStyleB op)⟩ = headKVs plan := by
  unfold headKVs styleKVs
  have h1 : (plan.operations.filter (fun op => !unsafeStyleB op)).filterMap opKV
      = plan.operations.filterMap opKV := by
    apply filterMap_filter_eq
    intro x _ hx
    simp only [Bool.not_eq_false'] at hx
    exact opKV_of_unsafeStyle hx
  have h2 : (plan.operations.filter (fun op => !unsafeStyleB op)).filterMap safeStyleText
      = plan.operations.filterMap safeStyleText := by
    apply filterMap_filter_eq
    intro x _ hx
    simp only [Bool.not_eq_false'] at hx
    exact safeStyleText_of_unsafeStyle hx
  simp only [h1, h2]

theorem bodyStores_filter_unsafeOps (b : List HNode) (plan : PatchPlan) :
    bodyStores b ⟨plan.operations.filter (fun op => !unsafeStyleB op)⟩ = bodyStores b plan := by
  unfold bodyStores
  have h1 : (plan.operations.filter (fun op => !unsafeStyleB op)).filterMap (gateStore b)
      = plan.operations.filterMap (gateStore b) := by
    apply filterMap_filter_eq
    intro x _ hx
    simp only [Bool.not_eq_false'] at hx
    exact gateStore_of_unsafeStyle hx
  rw [h1]

theorem applyPlan_doc_filter_unsafeOps (d : Doc) (plan : PatchPlan) :
    (applyPlan d ⟨plan.operations.filter (fun op => !unsafeStyleB op)⟩).doc
      = (applyPlan d plan).doc := by
  show Doc.mk _ _ = Doc.mk _ _
  rw [headKVs_filter_unsafeOps, bodyStores_filter_unsafeOps]

theorem manualFix_of_unsafeStyle {d : Doc} {plan : PatchPlan} {aid rsn : String}
    {target : NodeRef} {rules : List CssDecl} {mg : Option String}
    (hop : PatchOp.insertStyleScoped aid rsn target rules mg ∈ plan.operations)
    (hrules : cssSafe rules = false) :
    (⟨.insertStyleScoped aid rsn target rules mg, .Unsafe,
        "css rule outside the Tier-1 allow-list"⟩ : ManualFixEntry)
      ∈ (applyPlan d plan).manualFix := by
  show _ ∈ plan.operations.filterMap (opManualFix d.body)
  apply List.mem_filterMap.mpr
  refine ⟨.insertStyleScoped aid rsn target rules mg, hop, ?_⟩
  simp [opManualFix, SAFE_CSS_TOGGLE, hrules]

/-! ### Diff engine lemmas -/

theorem applyEdits_map_ins (ys : List String) :
    applyEdits (ys.map DiffEdit.ins) [] = some ys := by
  induction ys with
  | nil => rfl
  | cons y ys ih => simp [applyEdits, ih]

theorem applyEdits_map_del (xs : List String) :
    applyEdits (xs.map DiffEdit.del) xs = some [] := by
  induction xs with
  | nil => rfl
  | cons x xs ih => simp [applyEdits, ih]

theorem applyEdits_diffLines (xs ys : List String) :
    applyEdits (diffLines xs ys) xs = some ys := by
  induction xs, ys using diffLines.induct with
  | case1 ys =>
    rw [diffLines]
    exact applyEdits_map_ins ys
  | case2 x xs =>
    rw [diffLines]
    exact applyEdits_map_del (x :: xs)
  | case3 txs s tys ih =>
    rw [diffLines, if_pos rfl]
    simp [applyEdits, ih]
  | case4 x xs y ys hxy dd ii hcost ihd ihi =>
    rw [diffLines, if_neg hxy]
    simp only []
    rw [if_pos hcost]
    show applyEdits (DiffEdit.del x :: diffLines xs (y :: ys)) (x :: xs) = some (y :: ys)
    simp [applyEdits, ihd]
  | case5 x xs y ys hxy dd ii hcost ihd ihi =>
    rw [diffLines, if_neg hxy]
    simp only []
    rw [if_neg hcost]
    show applyEdits (DiffEdit.ins y :: diffLines (x :: xs) ys) (x :: xs) = some (y :: ys)
    simp [applyEdits, ihi]

/-! ### Resolution cache lemmas -/

theorem cacheFind_coherent {c : ResCache} (hc : cacheCoherent c) {d : Doc} {r : NodeRef}
    {v : NodeRef} (h : cacheFind c (d, r) = some v) : v = resolveRef d r := by
  induction c with
  | nil => exact Option.noConfusion h
  | cons e rest ih =>
    obtain ⟨k', v'⟩ := e
    unfold cacheFind at h
    split at h
    · rename_i hk
      injection h with h'
      have := hc (k', v') (List.mem_cons_self _ _)
      rw [hk] at this
      rw [← h']
      exact this
    · exact ih (fun e he => hc e (List.mem_cons_of_mem _ he)) h

theorem resolveRefCached_fst {c : ResCache} (hc : cacheCoherent c) (d : Doc) (r : NodeRef) :
    (resolveRefCached c d r).1 = resolveRef d r := by
  unfold resolveRefCached
  cases h : cacheFind c (d, r) with
  | none => rfl
  | some v => exact cacheFind_coherent hc h

theorem resolveRefCached_coherent {c : ResCache} (hc : cacheCoherent c) (d : Doc) (r : NodeRef) :
    cacheCoherent (resolveRefCached c d r).2 := by
  unfold resolveRefCached
  cases h : cacheFind c (d, r) with
  | none =>
    intro e he
    rcases List.mem_append.mp he with h1 | h1
    · exact hc e h1
    · simp at h1
      rw [h1]
  | some v => exact hc

theorem resolveOpCached_fst {c : ResCache} (hc : cacheCoherent c) (d : Doc) (op : PatchOp) :
    (resolveOpCached c d op).1 = resolveOp d op := by
  cases op with
  | replaceAttr aid rsn target a v =>
    simp only [resolveOpCached, resolveOp]
    rw [resolveRefCached_fst hc]
  | insertStyleScoped aid rsn target rules mg =>
    simp only [resolveOpCached, resolveOp]
    rw [resolveRefCached_fst hc]
  | upsertTitle _ _ _ => rfl
  | upsertMetaName _ _ _ _ => rfl
  | upsertMetaProperty _ _ _ _ => rfl
  | upsertLinkRel _ _ _ _ _ => rfl

theorem resolveOpCached_coherent {c : ResCache} (hc : cacheCoherent c) (d : Doc) (op : PatchOp) :
    cacheCoherent (resolveOpCached c d op).2 := by
  cases op with
  | replaceAttr aid rsn target a v => exact resolveRefCached_coherent hc d target
  | insertStyleScoped aid rsn target rules mg => exact resolveRefCached_coherent hc d target
  | upsertTitle _ _ _ => exact hc
  | upsertMetaName _ _ _ _ => exact hc
  | upsertMetaProperty _ _ _ _ => exact hc
  | upsertLinkRel _ _ _ _ _ => exact hc

theorem resolveOpsCached_fst {c : ResCache} (hc : cacheCoherent c) (d : Doc)
    (ops : List PatchOp) : (resolveOpsCached c d ops).1 = ops.map (resolveOp d) := by
  induction ops generalizing c with
  | nil => rfl
  | cons op rest ih =>
    simp only [resolveOpsCached, List.map_cons]
    rw [resolveOpCached_fst hc, ih (resolveOpCached_coherent hc d op)]

theorem runPipelineCached_fst {c : ResCache} (hc : cacheCoherent c) (d : Doc)
    (plan : PatchPlan) : (runPipelineCached c d plan).1 = runPipeline d plan := by
  have h1 : (resolveOpsCached c d plan.operations).1
      = plan.operations.map (resolveOp d) := resolveOpsCached_fst hc d plan.operations
  simp only [runPipelineCached, runPipeline, resolvePlan, h1]

/-! ### Resolver confidence lemmas -/

theorem simScore_nonneg (a b : String) : 0 ≤ simScore a b := by
  unfold simScore
  positivity

theorem simScore_le_one (a b : String) : simScore a b ≤ 1 := by
  unfold simScore
  rw [div_le_one (by positivity)]
  have hlen : ((wsTokens a).inter (wsTokens b)).length ≤ (wsTokens a).length := by
    simp only [List.inter]
    exact List.length_filter_le _ _
  have h1 : ((wsTokens a).inter (wsTokens b)).length
      ≤ max 1 (max (wsTokens a).length (wsTokens b).length) := by
    calc ((wsTokens a).inter (wsTokens b)).length
        ≤ (wsTokens a).length := hlen
      _ ≤ max (wsTokens a).length (wsTokens b).length := le_max_left _ _
      _ ≤ max 1 (max (wsTokens a).length (wsTokens b).length) := le_max_right _ _
  exact_mod_cast h1

theorem pathConf_le (len : Nat) : pathConf len ≤ 4 / 5 := by
  unfold pathConf
  have h0 : (0 : ℚ) < 1 + len := by positivity
  have h1 : (1 : ℚ) / (1 + len) ≤ 1 := by
    rw [div_le_one h0]
    have : (0 : ℚ) ≤ len := Nat.cast_nonneg len
    linarith
  linarith

theorem pathConf_gt (len : Nat) : 3 / 5 < pathConf len := by
  unfold pathConf
  have h0 : (0 : ℚ) < 1 + len := by positivity
  have h2 : 0 < (1 : ℚ) / (1 + len) := by positivity
  linarith

theorem resolveBySelector_conf {d : Doc} {sel : Selector} {p : List Nat} {c : ℚ}
    (h : resolveBySelector d sel = some (p, c)) : c = 1 ∨ c = 1 - ambiguityPenalty := by
  unfold resolveBySelector at h
  split at h
  · exact Option.noConfusion h
  · left
    injection h with h'
    injection h' with _ h2
    exact h2.symm
  · right
    injection h with h'
    injection h' with _ h2
    exact h2.symm

theorem resolveByPath_conf {d : Doc} {q : List Nat} {p : List Nat} {c : ℚ}
    (h : resolveByPath d q = some (p, c)) : c = pathConf q.length := by
  unfold resolveByPath at h
  split at h
  · exact Option.noConfusion h
  · split at h
    · injection h with h'
      injection h' with _ h2
      exact h2.symm
    · exact Option.noConfusion h

theorem resolveBySnippet_conf {d : Doc} {s : String} {p : List Nat} {c : ℚ}
    (h : resolveBySnippet d s = some (p, c)) : ∃ t, c = snippetConf (simScore t s) := by
  unfold resolveBySnippet at h
  split at h
  · exact Option.noConfusion h
  · injection h with h'
    injection h' with _ h2
    exact ⟨_, h2.symm⟩

/-! ### Claim theorems -/

/-- C1: Applying a PatchPlan is idempotent — for every document D and
every PatchPlan P, applying P to the result of applying P to D yields a
byte-identical document to applying P to D once:
`apply(apply(D,P),P) == apply(D,P)`. -/
theorem C1_apply_idempotent (d : Doc) (plan : PatchPlan) :
    (applyPlan (applyPlan d plan).doc plan).doc = (applyPlan d plan).doc
    ∧ serializeDoc (applyPlan (applyPlan d plan).doc plan).doc
      = serializeDoc (applyPlan d plan).doc := by
  refine ⟨applyPlan_doc_idem d plan, ?_⟩
  rw [applyPlan_doc_idem d plan]

/-- C2 counterexample: head-singleton key uniqueness is not
unconditional — a document that already contains two `<title>` elements
still contains both after applying a PatchPlan that does not touch the
title, so the claim "for every document … at most one `<title>`" fails
at this concrete input. -/
theorem C2_counterexample :
    ¬ (countKey HKey.title
        (applyPlan
          ⟨[.elem "title" [] [.text "a"], .elem "title" [] [.text "b"]], []⟩
          ⟨[.upsertMetaName "audit-1" "add description" "description" "x"]⟩).doc.head
        ≤ 1) := by
  decide

/-- C2 (amended): the Applier preserves head-singleton key uniqueness —
if the input document's head contains at most one element per identity
key (its key list has no duplicates), then after apply the document
contains at most one `<title>`, at most one `meta[name=X]` per X, at
most one `meta[property=X]` per X, and at most one
`link[rel=X][hreflang=Y]` per (X,Y): every key counts at most once. -/
theorem C2_key_uniqueness_preserved (d : Doc) (plan : PatchPlan)
    (hnd : (d.head.filterMap nodeKey).Nodup) :
    ∀ k, countKey k (applyPlan d plan).doc.head ≤ 1 := by
  have hle := countKey_le_one_of_nodup hnd
  intro k
  show countKey k (applyUpserts (headKVs plan) d.head) ≤ 1
  exact countKey_applyUpserts_le_one hle (headKVs plan) k

theorem C2_witness :
    (([HNode.elem "meta" [("name", "description"), ("content", "x")] []].filterMap
        nodeKey).Nodup)
    ∧ ∀ k, countKey k
        (applyPlan ⟨[.elem "meta" [("name", "description"), ("content", "x")] []], []⟩
          ⟨[.upsertTitle "audit-1" "add title" "T"]⟩).doc.head ≤ 1 :=
  ⟨by decide,
    C2_key_uniqueness_preserved
      ⟨[.elem "meta" [("name", "description"), ("content", "x")] []], []⟩
      ⟨[.upsertTitle "audit-1" "add title" "T"]⟩ (by decide)⟩

/-- C3: the pipeline is deterministic as a two-run property — resolving
and applying the same (D, P) in two separate invocations (each running
through any coherent resolution-cache state, e.g. an empty cache or the
cache left by a previous run) produces identical modified output,
identical diff, and an identical ordering of ManualFixEntry items. -/
theorem C3_pipeline_deterministic (d : Doc) (plan : PatchPlan) (c1 c2 : ResCache)
    (h1 : cacheCoherent c1) (h2 : cacheCoherent c2) :
    (runPipelineCached c1 d plan).1.modified = (runPipelineCached c2 d plan).1.modified
    ∧ (runPipelineCached c1 d plan).1.diff = (runPipelineCached c2 d plan).1.diff
    ∧ (runPipelineCached c1 d plan).1.manualFix = (runPipelineCached c2 d plan).1.manualFix := by
  rw [runPipelineCached_fst h1 d plan, runPipelineCached_fst h2 d plan]
  exact ⟨rfl, rfl, rfl⟩

theorem C3_witness :
    cacheCoherent []
    ∧ cacheCoherent [((Doc.mk [] [], NodeRef.mk none none none none 0 none),
        resolveRef (Doc.mk [] []) (NodeRef.mk none none none none 0 none))]
    ∧ ((runPipelineCached [] (Doc.mk [] []) ⟨[]⟩).1.modified
          = (runPipelineCached [((Doc.mk [] [], NodeRef.mk none none none none 0 none),
              resolveRef (Doc.mk [] []) (NodeRef.mk none none none none 0 none))]
              (Doc.mk [] []) ⟨[]⟩).1.modified
        ∧ (runPipelineCached [] (Doc.mk [] []) ⟨[]⟩).1.diff
          = (runPipelineCached [((Doc.mk [] [], NodeRef.mk none none none none 0 none),
              resolveRef (Doc.mk [] []) (NodeRef.mk none none none none 0 none))]
              (Doc.mk [] []) ⟨[]⟩).1.diff
        ∧ (runPipelineCached [] (Doc.mk [] []) ⟨[]⟩).1.manualFix
          = (runPipelineCached [((Doc.mk [] [], NodeRef.mk none none none none 0 none),
              resolveRef (Doc.mk [] []) (NodeRef.mk none none none none 0 none))]
              (Doc.mk [] []) ⟨[]⟩).1.manualFix) :=
  ⟨fun e he => absurd he (List.not_mem_nil e),
    fun e he => by
      simp only [List.mem_singleton] at he
      rw [he],
    C3_pipeline_deterministic (Doc.mk [] []) ⟨[]⟩ _ _
      (fun e he => absurd he (List.not_mem_nil e))
      (fun e he => by
        simp only [List.mem_singleton] at he
        rw [he])⟩

/-- C4: NodeRef confidence is monotonically non-increasing along the
resolution fallback chain — in the same document, any confidence
produced by selector resolution is ≥ any confidence produced by
structural-path resolution, which is ≥ any confidence produced by
snippet+fingerprint resolution. -/
theorem C4_confidence_monotone (d : Doc) (sel : Selector) (q : List Nat) (s : String)
    (p1 p2 p3 : List Nat) (c1 c2 c3 : ℚ)
    (h1 : resolveBySelector d sel = some (p1, c1))
    (h2 : resolveByPath d q = some (p2, c2))
    (h3 : resolveBySnippet d s = some (p3, c3)) :
    c2 ≤ c1 ∧ c3 ≤ c2 := by
  have hb1 := resolveBySelector_conf h1
  have hb2 := resolveByPath_conf h2
  obtain ⟨t, hb3⟩ := resolveBySnippet_conf h3
  constructor
  · rcases hb1 with h | h <;> subst h <;> rw [hb2]
    · linarith [pathConf_le q.length]
    · unfold ambiguityPenalty
      linarith [pathConf_le q.length]
  · rw [hb2, hb3]
    unfold snippetConf
    have hs1 := simScore_le_one t s
    linarith [pathConf_gt q.length]

theorem C4_witness :
    resolveBySelector ⟨[], [.elem "img" [("src", "a.png")] [.text "hello world"]]⟩
        (.tag "img") = some ([0], 1)
    ∧ resolveByPath ⟨[], [.elem "img" [("src", "a.png")] [.text "hello world"]]⟩ [0]
        = some ([0], pathConf 1)
    ∧ resolveBySnippet ⟨[], [.elem "img" [("src", "a.png")] [.text "hello world"]]⟩ "hello"
        = some ([0], snippetConf (simScore "hello world" "hello"))
    ∧ (pathConf 1 ≤ 1 ∧ snippetConf (simScore "hello world" "hello") ≤ pathConf 1) :=
  ⟨by rfl, by rfl, by rfl,
    C4_confidence_monotone ⟨[], [.elem "img" [("src", "a.png")] [.text "hello world"]]⟩
      (.tag "img") [0] "hello" [0] [0] [0] 1 (pathConf 1)
      (snippetConf (simScore "hello world" "hello"))
      (by rfl) (by rfl) (by rfl)⟩

/-- C5: the generated unified diff round-trips — applying the diff's
hunks to the normalized original reconstructs the normalized modified
document exactly, and the reported `applicable` flag is true exactly
when this reconstruction succeeds and the diff is non-empty whenever
the PatchPlan produced at least one AppliedMark. -/
theorem C5_diff_round_trip (orig modified : String) (marks : List AppliedMark) :
    applyEdits (diffLines (normLines orig) (normLines modified)) (normLines orig)
      = some (normLines modified)
    ∧ ((validate_unified_diff orig modified marks).applicable = true ↔
        (applyEdits (diffLines (normLines orig) (normLines modified)) (normLines orig)
            = some (normLines modified)
          ∧ (marks ≠ [] → (validate_unified_diff orig modified marks).diff ≠ ""))) := by
  have hrt := applyEdits_diffLines (normLines orig) (normLines modified)
  refine ⟨hrt, ?_⟩
  simp only [validate_unified_diff, hrt, beq_self_eq_true, Bool.true_and, true_and,
    Bool.or_eq_true, Bool.not_eq_true', beq_eq_false_iff_ne, List.isEmpty_iff, ne_eq]
  tauto

theorem C5_witness :
    applyEdits (diffLines (normLines "<p>a</p>") (normLines "<p>b</p>"))
        (normLines "<p>a</p>") = some (normLines "<p>b</p>")
    ∧ ((validate_unified_diff "<p>a</p>" "<p>b</p>" [.headMark .title]).applicable = true ↔
        (applyEdits (diffLines (normLines "<p>a</p>") (normLines "<p>b</p>"))
            (normLines "<p>a</p>") = some (normLines "<p>b</p>")
          ∧ ([AppliedMark.headMark .title] ≠ [] →
              (validate_unified_diff "<p>a</p>" "<p>b</p>" [.headMark .title]).diff ≠ ""))) :=
  C5_diff_round_trip "<p>a</p>" "<p>b</p>" [.headMark .title]

/-- C6: the CSS safety gate never applies a disallowed style rule — for
every `insertStyleScoped` operation whose rules reference a property
outside the fixed allow-list or use a forcing priority modifier, the
Applier rejects the operation, records it as Unsafe in ManualFixEntry,
and the document is unchanged with respect to that operation (dropping
every unsafe style operation from the plan yields the same document). -/
theorem C6_css_safety_gate (d : Doc) (plan : PatchPlan) (aid rsn : String)
    (target : NodeRef) (rules : List CssDecl) (mg : Option String)
    (hop : PatchOp.insertStyleScoped aid rsn target rules mg ∈ plan.operations)
    (hrules : cssSafe rules = false) :
    (⟨.insertStyleScoped aid rsn target rules mg, .Unsafe,
        "css rule outside the Tier-1 allow-list"⟩ : ManualFixEntry)
      ∈ (applyPlan d plan).manualFix
    ∧ (applyPlan d ⟨plan.operations.filter (fun op => !unsafeStyleB op)⟩).doc
      = (applyPlan d plan).doc :=
  ⟨manualFix_of_unsafeStyle hop hrules, applyPlan_doc_filter_unsafeOps d plan⟩

theorem C6_witness :
    (PatchOp.insertStyleScoped "audit-9" "force sticky header"
        (NodeRef.mk none none none none 0 none)
        [CssDecl.mk "position" "fixed" true] none
      ∈ ([PatchOp.insertStyleScoped "audit-9" "force sticky header"
          (NodeRef.mk none none none none 0 none)
          [CssDecl.mk "position" "fixed" true] none] : List PatchOp))
    ∧ cssSafe [CssDecl.mk "position" "fixed" true] = false
    ∧ ((⟨PatchOp.insertStyleScoped "audit-9" "force sticky header"
            (NodeRef.mk none none none none 0 none)
            [CssDecl.mk "position" "fixed" true] none, .Unsafe,
          "css rule outside the Tier-1 allow-list"⟩ : ManualFixEntry)
        ∈ (applyPlan ⟨[], []⟩
            ⟨[PatchOp.insertStyleScoped "audit-9" "force sticky header"
                (NodeRef.mk none none none none 0 none)
                [CssDecl.mk "position" "fixed" true] none]⟩).manualFix
      ∧ (applyPlan ⟨[], []⟩
          ⟨[PatchOp.insertStyleScoped "audit-9" "force sticky header"
              (NodeRef.mk none none none none 0 none)
              [CssDecl.mk "position" "fixed" true] none].filter
            (fun op => !unsafeStyleB op)⟩).doc
        = (applyPlan ⟨[], []⟩
            ⟨[PatchOp.insertStyleScoped "audit-9" "force sticky header"
                (NodeRef.mk none none none none 0 none)
                [CssDecl.mk "position" "fixed" true] none]⟩).doc) :=
  ⟨List.mem_cons_self _ _, by rfl,
    C6_css_safety_gate ⟨[], []⟩
      ⟨[PatchOp.insertStyleScoped "audit-9" "force sticky header"
          (NodeRef.mk none none none none 0 none)
          [CssDecl.mk "position" "fixed" true] none]⟩
      "audit-9" "force sticky header" (NodeRef.mk none none none none 0 none)
      [CssDecl.mk "position" "fixed" true] none
      (List.mem_cons_self _ _) (by rfl)⟩

/-- C7 counterexample: the frontend's `OptimizationResult` carries no
`diff` field at all — a successful response object (here with
`success = true` and `modified_html` set) is exposed to the caller
unchanged and its JSON keys do not include `"diff"`, so the claim that
every successful optimization result carries a string-valued `diff`
field fails at this concrete input. -/
theorem C7_counterexample :
    handleGenerateResult (FetchOutcome.response
      ⟨true, some "<html></html>", none, none, none, none, none⟩)
      = ⟨true, some "<html></html>", none, none, none, none, none⟩
    ∧ "diff" ∉ resultJsonKeys ⟨true, some "<html></html>", none, none, none, none, none⟩
    ∧ "diff" ∉ optimizationResultFields :=
  ⟨rfl, by decide, by decide⟩

/-- C7 (amended): every optimization result exposed to the caller is an
`OptimizationResult` of shape `{success, modified_html?,
optimization_result?, original_seo_score?, optimized_seo_score?,
issues_processed?, error?}` — it carries `modified_html`, not a `diff`
string — and the caller receives either the backend's response object
unchanged or an explicit error result (`success = false` with an error
message) when the backend reports an error or cannot be reached. -/
theorem C7_result_shape (o : FetchOutcome) :
    (∃ data, o = .response data ∧ handleGenerateResult o = data)
    ∨ ((handleGenerateResult o).success = false
        ∧ ∃ e, (handleGenerateResult o).error = some e) := by
  cases o with
  | networkError => exact Or.inr ⟨rfl, "Cannot reach backend", rfl⟩
  | response data =>
    cases herr : data.error with
    | none =>
      left
      exact ⟨data, rfl, by simp [handleGenerateResult, herr]⟩
    | some e =>
      by_cases he : e = ""
      · left
        exact ⟨data, rfl, by simp [handleGenerateResult, herr, he]⟩
      · right
        constructor
        · simp [handleGenerateResult, herr, he]
        · exact ⟨e, by simp [handleGenerateResult, herr, he]⟩

/-- C8 counterexample: the audit service's `seoScore` is not an
integer — for a Lighthouse category score of 0.9234 the returned value
is `round(92.34 * 100) / 100 = 92.34`, whose reduced denominator is 50,
so no integer equals it. -/
theorem C8_counterexample :
    ¬ ∃ n : ℤ, audit_seoScore (9234 / 10000) = (n : ℚ) := by
  have hval : audit_seoScore (9234 / 10000) = 4617 / 50 := by
    unfold audit_seoScore
    norm_num [round_eq]
  rintro ⟨n, hn⟩
  rw [hval] at hn
  have h2 : (4617 : ℚ) = 50 * (n : ℚ) := by
    field_simp at hn
    linarith
  have h3 : (4617 : ℤ) = 50 * n := by exact_mod_cast h2
  omega

/-- C8 (amended): `seoScore` is the category score times 100 rounded to
two decimal places — `100 * seoScore` is always an integer (the value
itself need not be), and for a category score in [0, 1] the value lies
in [0, 100]. -/
theorem C8_seoScore_two_decimals (score : ℚ) :
    (∃ n : ℤ, audit_seoScore score * 100 = (n : ℚ))
    ∧ (0 ≤ score → score ≤ 1 →
        0 ≤ audit_seoScore score ∧ audit_seoScore score ≤ 100) := by
  constructor
  · refine ⟨round (score * 100 * 100), ?_⟩
    unfold audit_seoScore
    field_simp
  · intro h0 h1
    unfold audit_seoScore
    constructor
    · apply div_nonneg _ (by norm_num)
      have hx : (0 : ℚ) ≤ score * 100 * 100 := by positivity
      have : (0 : ℤ) ≤ round (score * 100 * 100) := by
        rw [round_eq, Int.le_floor]
        push_cast
        linarith
      exact_mod_cast this
    · rw [div_le_iff (by norm_num : (0 : ℚ) < 100)]
      have : round (score * 100 * 100) ≤ 10000 := by
        rw [round_eq]
        have : score * 100 * 100 + 1 / 2 < 10001 := by nlinarith
        have hfl := Int.floor_lt.mpr (by push_cast; linarith :
          score * 100 * 100 + 1 / 2 < ((10001 : ℤ) : ℚ))
        omega
      calc ((round (score * 100 * 100) : ℤ) : ℚ) ≤ ((10000 : ℤ) : ℚ) := by exact_mod_cast this
        _ = 100 * 100 := by norm_num

theorem C8_witness :
    (0 : ℚ) ≤ 9 / 10 ∧ (9 / 10 : ℚ) ≤ 1
    ∧ (0 ≤ audit_seoScore (9 / 10) ∧ audit_seoScore (9 / 10) ≤ 100)
    ∧ (∃ n : ℤ, audit_seoScore (9 / 10) * 100 = (n : ℚ)) :=
  ⟨by norm_num, by norm_num,
    (C8_seoScore_two_decimals (9 / 10)).2 (by norm_num) (by norm_num),
    (C8_seoScore_two_decimals (9 / 10)).1⟩

/-- C9: missing-field requests are rejected without side effects — a
POST /audit request whose body lacks a `url` (or carries a falsy empty
one) and a POST /audit-html request whose body lacks an `html` are
answered with HTTP 400 and a JSON error object, and the handler returns
before starting the temp server, launching Chrome or running any
Lighthouse audit. -/
theorem C9_missing_field_rejected (url html : Option String) (ok1 ok2 : Bool)
    (hu : url = none ∨ url = some "")
    (hh : html = none ∨ html = some "") :
    auditHandlerEffects url ok1
      = [.respond 400 (some "Missing url in request body")]
    ∧ AuditEffect.launchChrome ∉ auditHandlerEffects url ok1
    ∧ AuditEffect.runLighthouse ∉ auditHandlerEffects url ok1
    ∧ auditHtmlHandlerEffects html ok2
      = [.respond 400 (some "Missing html in request body")]
    ∧ AuditEffect.launchChrome ∉ auditHtmlHandlerEffects html ok2
    ∧ AuditEffect.runLighthouse ∉ auditHtmlHandlerEffects html ok2
    ∧ ∀ p, AuditEffect.startTempServer p ∉ auditHtmlHandlerEffects html ok2 := by
  unfold auditHandlerEffects auditHtmlHandlerEffects
  rw [if_pos hu, if_pos hh]
  refine ⟨rfl, by decide, by decide, rfl, by decide, by decide, fun p => by simp⟩

theorem C9_witness :
    ((none : Option String) = none ∨ (none : Option String) = some "")
    ∧ ((some "" : Option String) = none ∨ (some "" : Option String) = some "")
    ∧ (auditHandlerEffects none true
        = [.respond 400 (some "Missing url in request body")]
      ∧ AuditEffect.launchChrome ∉ auditHandlerEffects none true
      ∧ AuditEffect.runLighthouse ∉ auditHandlerEffects none true
      ∧ auditHtmlHandlerEffects (some "") true
        = [.respond 400 (some "Missing html in request body")]
      ∧ AuditEffect.launchChrome ∉ auditHtmlHandlerEffects (some "") true
      ∧ AuditEffect.runLighthouse ∉ auditHtmlHandlerEffects (some "") true
      ∧ ∀ p, AuditEffect.startTempServer p ∉ auditHtmlHandlerEffects (some "") true) :=
  ⟨Or.inl rfl, Or.inr rfl,
    C9_missing_field_rejected none (some "") true true (Or.inl rfl) (Or.inr rfl)⟩

/-- C10: during the handling of a POST /audit-html request, the
temporary HTTP server on port 3002 responds to a GET request for any
path — not only `/temp-page` — with Content-Type `text/html` and a body
equal to the posted HTML string. -/
theorem C10_temp_server_any_path (html reqPath : String) :
    tempAppHandle html reqPath = { contentType := "text/html", body := html }
    ∧ (tempAppHandle html reqPath).body = html
    ∧ (tempAppHandle html reqPath).contentType = "text/html"
    ∧ tempPort = 3002 := by
  unfold tempAppHandle
  refine ⟨?_, ?_, ?_, rfl⟩ <;> split_ifs <;> rfl
